import Mathlib

/-!
Shallow embedding of the `cpybc` repository (a CPython 3.14 bytecode
consumer) and proofs about its specification claims.

The development covers three subsystems, translated from the Rust source:

* the bytecode lifter `parse314` (src/stack_ir/parse.rs) together with the
  stack-IR data model (src/stack_ir/mod.rs);
* the per-block abstract interpreter (src/abstract_interpretation/eval.rs,
  src/abstract_interpretation/mod.rs);
* the unmarshaller (src/unmarshal.rs).

Machine integers are modelled as `Nat` with explicit `% 2^32` (resp.
`% 2^64`) exactly at the operations the source performs on `u32` (resp.
`usize`) values that can wrap; Rust's release-profile wrapping semantics is
used for arithmetic overflow.  Fallible code returns `Except`/`Option`;
`panic!`/failed assertions are modelled as distinguished outcomes.
-/

/-- 2^32, the modulus of Rust `u32` arithmetic. -/
def u32size : Nat := 4294967296

/-- 2^64, the modulus of Rust `usize` arithmetic (64-bit target). -/
def u64size : Nat := 18446744073709551616

/-! ## Stack IR data model (src/stack_ir/mod.rs) -/

/-- `UnresolvedPlace` from src/stack_ir/mod.rs. -/
inductive UnresolvedPlace where
  | global (n : Nat)
  | local (n : Nat)
  | cell (n : Nat)
  | name (n : Nat)
deriving DecidableEq, Repr

/-- `Constant` from src/stack_ir/mod.rs. -/
inductive Constant where
  | byIndex (n : Nat)
  | smallInt (n : Nat)
  | none
  | null
deriving DecidableEq, Repr

/-- `UnaryOp` from src/stack_ir/mod.rs. -/
inductive UnaryOp where
  | negative
  | logicalNot
  | invert
deriving DecidableEq, Repr

/-- `BinOp` from src/stack_ir/mod.rs. -/
inductive BinOp where
  | add | sub | mul | power | div | floorDiv | remainder
  | and | or | xor | lshift | rshift | matMul
  | inplaceAdd | inplaceSub | inplaceMul | inplacePower | inplaceDiv
  | inplaceFloorDiv | inplaceRemainder | inplaceAnd | inplaceOr | inplaceXor
  | inplaceLShift | inplaceRShift | inplaceMatMul
  | subscript
  | eq | ne | gt | lt | gtEq | ltEq | is
deriving DecidableEq, Repr

/-- `JumpClass` from src/stack_ir/mod.rs. -/
inductive JumpClass where
  | always
  | ifFalse
deriving DecidableEq, Repr

/-- `Coercion` from src/stack_ir/mod.rs. -/
inductive Coercion where
  | bool
  | iter
  | awaitable
  | asyncIter
deriving DecidableEq, Repr

/-- `Instruction` from src/stack_ir/mod.rs.  The source constructor
`Return` is rendered `ret` (`return` is a Lean keyword). -/
inductive Instruction where
  | loadConst (c : Constant)
  | load (p : UnresolvedPlace)
  | store (p : UnresolvedPlace)
  | pop
  | copy (n : Nat)
  | swap (n : Nat)
  | unaryOp (op : UnaryOp)
  | binaryOp (op : BinOp)
  | jump (cls : JumpClass) (target : Nat)
  | call (n : Nat)
  | ret
  | makeFunction
  | coercion (k : Coercion)
deriving DecidableEq, Repr

/-- `IRParseError` from src/stack_ir/parse.rs. -/
inductive IRParseError where
  | smallIntTooLarge (v : Nat)
  | outOfBoundsBinOp (v : Nat)
  | outOfBoundsCompareOp (v : Nat)
  | argExtendWouldOverflow (v : Nat)
  | notYetImplementedInstruction (op : Nat)
  | jumpPastEnd (t : Nat)
  | jumpBeforeStart (d : Nat)
deriving DecidableEq, Repr

/-! ## The lifter `parse314` (src/stack_ir/parse.rs)

The source iterates over the `(opcode, arg)` pairs updating four pieces of
mutable state: the emitted instruction list `out`, the parallel table
`mapping`, the pending `arg_extension` and the running pair index
`instruction_count`.  We package them in `PState` and express the loop body
as a step function folded over the pair list. -/

/-- The mutable state of the `parse314` loop. -/
structure PState where
  out : List Instruction
  mapping : List Nat
  argExtension : Nat
  instructionCount : Nat
deriving DecidableEq, Repr

/-- The `extend_arg!` macro from src/stack_ir/parse.rs: the effective
argument is the `u32` sum of the base byte and the pending extension, and
the extension resets to 0. -/
def extendArg (base : Nat) (st : PState) : Nat × PState :=
  ((base + st.argExtension) % u32size, { st with argExtension := 0 })

/-- The `push!` macro from src/stack_ir/parse.rs: emit an instruction and
record the current raw pair index in the parallel `mapping` table. -/
def pushInstr (i : Instruction) (st : PState) : PState :=
  { st with out := st.out ++ [i], mapping := st.mapping ++ [st.instructionCount] }

/-- A bare `out.push(..)` without a `mapping` entry, as used by the
desugared-jump arms (opcodes 101, 102, 103) of src/stack_ir/parse.rs. -/
def rawPush (i : Instruction) (st : PState) : PState :=
  { st with out := st.out ++ [i] }

/-- One iteration of the `parse314` match (src/stack_ir/parse.rs lines
41-308), without the trailing `instruction_count += 1`.  `codeLen` is
`code.len()`, the number of raw pairs. -/
def pstepCore (codeLen : Nat) (st : PState) (p : Nat × Nat) :
    Except IRParseError PState :=
  match p with
  -- Load consts
  | (82, idx) =>
    let st := { st with argExtension := 0 }
    let (eff, st) := extendArg idx st
    .ok (pushInstr (.loadConst (.byIndex eff)) st)
  | (94, n) =>
    let (n2, st) := extendArg n st
    if 255 < n2 then .error (.smallIntTooLarge n2)
    else .ok (pushInstr (.loadConst (.smallInt n)) st)
  | (33, _) =>
    let st := { st with argExtension := 0 }
    .ok (pushInstr (.loadConst .null) st)
  -- Loads
  | (92, arg) =>
    let st := pushInstr (.loadConst .null) st
    let (eff, st) := extendArg (arg >>> 1) st
    .ok (pushInstr (.load (.global eff)) st)
  | (83, arg) | (84, arg) | (85, arg) | (86, arg) | (88, arg) =>
    let (eff, st) := extendArg arg st
    .ok (pushInstr (.load (.local eff)) st)
  | (87, arg) | (89, arg) =>
    let (eff, st) := extendArg arg st
    let st := pushInstr (.load (.local (eff >>> 4))) st
    .ok (pushInstr (.load (.local (eff &&& 15))) st)
  | (93, arg) =>
    let (eff, st) := extendArg arg st
    .ok (pushInstr (.load (.name eff)) st)
  -- Stores
  | (112, arg) =>
    let (eff, st) := extendArg arg st
    .ok (pushInstr (.store (.local eff)) st)
  | (115, arg) =>
    let (eff, st) := extendArg arg st
    .ok (pushInstr (.store (.global eff)) st)
  | (114, arg) =>
    let (eff, st) := extendArg arg st
    let st := pushInstr (.store (.local (eff >>> 4))) st
    .ok (pushInstr (.store (.local ((eff * 15) % u32size))) st)
  | (116, arg) =>
    let (eff, st) := extendArg arg st
    .ok (pushInstr (.store (.name eff)) st)
  -- Paired load + stores
  | (113, arg) =>
    let (eff, st) := extendArg arg st
    let st := pushInstr (.store (.local (eff >>> 4))) st
    .ok (pushInstr (.load (.local (eff &&& 15))) st)
  -- Pops
  | (9, _) | (30, _) | (31, _) =>
    let st := { st with argExtension := 0 }
    .ok (pushInstr .pop st)
  -- Copy
  | (59, arg) =>
    let (eff, st) := extendArg arg st
    .ok (pushInstr (.copy eff) st)
  -- Swap
  | (117, arg) =>
    let (eff, st) := extendArg arg st
    .ok (pushInstr (.swap eff) st)
  -- Binary ops
  | (44, op) =>
    let (eff, st) := extendArg op st
    match eff with
    | 0 => .ok (pushInstr (.binaryOp .add) st)
    | 1 => .ok (pushInstr (.binaryOp .and) st)
    | 2 => .ok (pushInstr (.binaryOp .floorDiv) st)
    | 3 => .ok (pushInstr (.binaryOp .lshift) st)
    | 4 => .ok (pushInstr (.binaryOp .matMul) st)
    | 5 => .ok (pushInstr (.binaryOp .mul) st)
    | 6 => .ok (pushInstr (.binaryOp .remainder) st)
    | 7 => .ok (pushInstr (.binaryOp .or) st)
    | 8 => .ok (pushInstr (.binaryOp .power) st)
    | 9 => .ok (pushInstr (.binaryOp .rshift) st)
    | 10 => .ok (pushInstr (.binaryOp .sub) st)
    | 11 => .ok (pushInstr (.binaryOp .div) st)
    | 12 => .ok (pushInstr (.binaryOp .xor) st)
    | 13 => .ok (pushInstr (.binaryOp .inplaceAdd) st)
    | 14 => .ok (pushInstr (.binaryOp .inplaceAnd) st)
    | 15 => .ok (pushInstr (.binaryOp .inplaceFloorDiv) st)
    | 16 => .ok (pushInstr (.binaryOp .inplaceLShift) st)
    | 17 => .ok (pushInstr (.binaryOp .inplaceMatMul) st)
    | 18 => .ok (pushInstr (.binaryOp .inplaceMul) st)
    | 19 => .ok (pushInstr (.binaryOp .inplaceRemainder) st)
    | 20 => .ok (pushInstr (.binaryOp .inplaceOr) st)
    | 21 => .ok (pushInstr (.binaryOp .inplacePower) st)
    | 22 => .ok (pushInstr (.binaryOp .inplaceRShift) st)
    | 23 => .ok (pushInstr (.binaryOp .inplaceSub) st)
    | 24 => .ok (pushInstr (.binaryOp .inplaceDiv) st)
    | 25 => .ok (pushInstr (.binaryOp .inplaceXor) st)
    | 26 => .ok (pushInstr (.binaryOp .subscript) st)
    | n => .error (.outOfBoundsBinOp n)
  -- Comparison ops
  | (56, arg) =>
    let (eff, st) := extendArg arg st
    match eff >>> 5 with
    | 0 => binCmp .lt eff st
    | 1 => binCmp .ltEq eff st
    | 2 => binCmp .eq eff st
    | 3 => binCmp .ne eff st
    | 4 => binCmp .gt eff st
    | 5 => binCmp .gtEq eff st
    | _ => .error (.outOfBoundsCompareOp eff)
  -- Is op
  | (74, _) =>
    let st := { st with argExtension := 0 }
    .ok (pushInstr (.binaryOp .is) st)
  -- Unary ops
  | (41, _) =>
    let st := { st with argExtension := 0 }
    .ok (pushInstr (.unaryOp .negative) st)
  | (42, _) =>
    let st := { st with argExtension := 0 }
    .ok (pushInstr (.unaryOp .logicalNot) st)
  | (40, _) =>
    let st := { st with argExtension := 0 }
    .ok (pushInstr (.unaryOp .invert) st)
  -- Jumps
  | (100, delta) =>
    let (eff, st) := extendArg delta st
    let target := (st.instructionCount + 2 + eff) % u32size
    if codeLen ≤ target then .error (.jumpPastEnd target)
    else .ok (pushInstr (.jump .ifFalse target) st)
  | (101, delta) =>
    let (eff, st) := extendArg delta st
    let target := (st.instructionCount + 2 + eff) % u32size
    if codeLen ≤ target then .error (.jumpPastEnd target)
    else
      let st := rawPush (.loadConst .none) st
      let st := rawPush (.binaryOp .is) st
      let st := rawPush (.unaryOp .logicalNot) st
      .ok (pushInstr (.jump .ifFalse target) st)
  | (102, delta) =>
    let (eff, st) := extendArg delta st
    let target := (st.instructionCount + 2 + eff) % u32size
    if codeLen ≤ target then .error (.jumpPastEnd target)
    else
      let st := rawPush (.loadConst .none) st
      let st := rawPush (.binaryOp .is) st
      .ok (pushInstr (.jump .ifFalse target) st)
  | (103, delta) =>
    let (eff, st) := extendArg delta st
    let target := (st.instructionCount + 2 + eff) % u32size
    if codeLen ≤ target then .error (.jumpPastEnd target)
    else
      let st := rawPush (.unaryOp .logicalNot) st
      .ok (pushInstr (.jump .ifFalse target) st)
  | (77, delta) =>
    let (eff, st) := extendArg delta st
    let target := (st.instructionCount + 1 + eff) % u32size
    if codeLen ≤ target then .error (.jumpPastEnd target)
    else .ok (pushInstr (.jump .always target) st)
  | (75, delta) =>
    let (arg, st) := extendArg delta st
    -- (instruction_count + 1).checked_sub(arg)
    if arg ≤ st.instructionCount + 1 then
      .ok (pushInstr (.jump .always (st.instructionCount + 1 - arg)) st)
    else .error (.jumpBeforeStart (arg - st.instructionCount - 1))
  -- Call
  | (52, n) =>
    let (eff, st) := extendArg n st
    .ok (pushInstr (.call eff) st)
  -- Return
  | (35, _) =>
    let st := { st with argExtension := 0 }
    .ok (pushInstr .ret st)
  -- Coercions
  | (39, _) =>
    let st := { st with argExtension := 0 }
    .ok (pushInstr (.coercion .bool) st)
  | (16, _) =>
    let st := { st with argExtension := 0 }
    .ok (pushInstr (.coercion .iter) st)
  | (71, _) =>
    let st := { st with argExtension := 0 }
    .ok (pushInstr (.coercion .awaitable) st)
  | (14, _) =>
    let st := { st with argExtension := 0 }
    .ok (pushInstr (.coercion .asyncIter) st)
  -- Make Function
  | (23, _) =>
    let st := { st with argExtension := 0 }
    .ok (pushInstr .makeFunction st)
  -- Extend args
  | (69, n) =>
    if 16777215 < st.argExtension then
      .error (.argExtendWouldOverflow st.argExtension)
    else
      let e1 := (st.argExtension + n) % u32size
      .ok { st with argExtension := (e1 * 256) % u32size }
  -- NOPs
  | (27, _) | (0, _) | (128, _) | (28, _) =>
    .ok { st with argExtension := 0 }
  | (op, _) => .error (.notYetImplementedInstruction op)
where
  /-- Opcode 56 shared tail: push the comparison, then a `Coercion(Bool)`
  when bit 4 of the effective argument is set. -/
  binCmp (op : BinOp) (eff : Nat) (st : PState) : Except IRParseError PState :=
    let st := pushInstr (.binaryOp op) st
    if eff &&& 16 ≠ 0 then .ok (pushInstr (.coercion .bool) st)
    else .ok st

/-- One full iteration of the `parse314` loop, including the trailing
`instruction_count += 1`. -/
def pstep (codeLen : Nat) (st : PState) (p : Nat × Nat) :
    Except IRParseError PState :=
  (pstepCore codeLen st p).map
    fun st => { st with instructionCount := st.instructionCount + 1 }

/-- The first pass of `parse314`: fold the loop body over the pair list. -/
def pfold (codeLen : Nat) (code : List (Nat × Nat)) (st : PState) :
    Except IRParseError PState :=
  code.foldlM (pstep codeLen) st

/-- `slice::partition_point` for a predicate that holds on a prefix of the
list (which is the contract under which the source calls it: `mapping` is
nondecreasing and the predicate is `x < target`): the length of the
longest prefix satisfying the predicate. -/
def partitionPoint (p : Nat → Bool) (l : List Nat) : Nat :=
  (l.takeWhile p).length

/-- The jump-patching step of `parse314` for one instruction.  `none`
models the `panic!` raised when `partition_point` falls off the end of
`mapping`. -/
def patchInstr (mapping : List Nat) (i : Instruction) : Option Instruction :=
  match i with
  | .jump cls target =>
    let newTarget := partitionPoint (fun x => decide (x < target)) mapping
    if newTarget = mapping.length then none
    else some (.jump cls newTarget)
  | i => some i

/-- The overall result of `parse314`: success, an `IRParseError`, or the
abort raised by the jump-patching `panic!`. -/
inductive LiftResult where
  | ok (instrs : List Instruction)
  | err (e : IRParseError)
  | aborted
deriving DecidableEq, Repr

/-- `parse314` on the `(opcode, arg)` pair list (after `as_tuple`). -/
def parse314pairs (code : List (Nat × Nat)) : LiftResult :=
  match pfold code.length code ⟨[], [], 0, 0⟩ with
  | .error e => .err e
  | .ok st =>
    match st.out.mapM (patchInstr st.mapping) with
    | Option.none => .aborted
    | some instrs => .ok instrs

/-- `as_tuple` from src/stack_ir/parse.rs: reinterpret the even-length
byte stream as `(opcode, arg)` pairs; `none` models the assertion failure
on odd length. -/
def asTuple : List Nat → Option (List (Nat × Nat))
  | [] => some []
  | [_] => Option.none
  | a :: b :: rest => (asTuple rest).map ((a, b) :: ·)

/-- `parse314` on the raw byte stream. -/
def parse314 (code : List Nat) : Option LiftResult :=
  (asTuple code).map parse314pairs

/-- The opcodes of the `parse314` arms that emit a single instruction
carrying `extend_arg!(*arg)` unchanged as its argument: Copy (59), Swap
(117), Call (52), the Local loads (83-86, 88), the Name load (93), and
the Local/Global/Name stores (112, 115, 116).  These are the argumented
arms that honour a pending extension verbatim — in contrast to opcode 82,
whose arm zeroes `arg_extension` before `extend_arg!`. -/
def extArgOps : List Nat := [59, 117, 52, 83, 84, 85, 86, 88, 93, 112, 115, 116]

/-- The instruction emitted by each arm of `extArgOps` when the effective
argument is `a`, read off the corresponding `push!` lines of
src/stack_ir/parse.rs. -/
def extArgInstr (op : Nat) (a : Nat) : Instruction :=
  match op with
  | 59 => .copy a
  | 117 => .swap a
  | 52 => .call a
  | 83 | 84 | 85 | 86 | 88 => .load (.local a)
  | 93 => .load (.name a)
  | 112 => .store (.local a)
  | 115 => .store (.global a)
  | 116 => .store (.name a)
  | _ => .pop

/-! ## Abstract interpretation data model (src/abstract_interpretation/mod.rs) -/

/-- `Place` from src/abstract_interpretation/mod.rs (resolved places). -/
inductive Place where
  | local (n : Nat)
  | global (n : Nat)
  | cell (n : Nat)
deriving DecidableEq, Repr

mutual
/-- `Expr` from src/abstract_interpretation/mod.rs.  The `Box<[Expr]>`
argument list of `Call` is represented by the mutually-defined `ExprList`
(a plain cons-list; Lean cannot derive decidable equality through a nested
`List Expr`). -/
inductive Expr where
  | constant (c : Constant)
  | load (p : Place)
  | unaryOp (op : UnaryOp) (sub : Expr)
  | binaryOp (op : BinOp) (lhs rhs : Expr)
  | coercion (k : Coercion) (sub : Expr)
  | makeFunction (sub : Expr)
  | call (func receiver : Expr) (args : ExprList)
deriving DecidableEq, Repr

/-- A list of `Expr` (the payload of `Expr.call`). -/
inductive ExprList where
  | nil
  | cons (head : Expr) (tail : ExprList)
deriving DecidableEq, Repr
end

/-- Convert an ordinary list of expressions into an `ExprList`. -/
def ExprList.ofList : List Expr → ExprList
  | [] => .nil
  | e :: t => .cons e (ExprList.ofList t)

/-- `Statement` from src/abstract_interpretation/mod.rs.  `Return` and `If`
are rendered `ret` and `ifStmt` (Lean keywords). -/
inductive Statement where
  | trivial (e : Expr)
  | store (e : Expr) (into : Place)
  | ret (e : Expr)
  | ifStmt (e : Expr) (target : Nat)
  | jump (target : Nat)
deriving DecidableEq, Repr

/-- `ControlFlow` from src/abstract_interpretation/mod.rs (the source
constructor is spelled `CondtionalJump`). -/
inductive ControlFlow where
  | unconditional (target : Nat)
  | condtionalJump (ifTrue ifFalse : Nat) (e : Expr)
  | terminates
deriving DecidableEq, Repr

/-- `Block` from src/abstract_interpretation/mod.rs. -/
structure Block where
  body : List Statement
  controlFlow : ControlFlow
deriving DecidableEq, Repr

/-- `EvaluationError` from src/abstract_interpretation/eval.rs. -/
inductive EvaluationError where
  | parseError (e : IRParseError)
  | poppedEmptyStack
  | stackOpOutOfBounds
  | blockWithNonEmptyStack (stack : List Expr) (instrs : List Instruction)
deriving DecidableEq, Repr

/-! ## The abstract interpreter (src/abstract_interpretation/eval.rs)

The symbolic stack is modelled exactly like the source's `Vec<Expr>`:
index 0 is the bottom, pushes and pops act on the back of the list.  The
per-block statement vector is modelled the same way.  `eval_place` lives in
the repository's `objects` module, which is not among the provided sources;
the evaluator is therefore parameterised over it. -/

/-- Wrapping `usize` subtraction (64-bit target, release profile), valid
for `a < 2^64`. -/
def wsub64 (a b : Nat) : Nat :=
  (a + (u64size - b % u64size)) % u64size

/-- `Vec::pop`: remove and return the last element. -/
def vpop (s : List Expr) : Option (Expr × List Expr) :=
  match s.getLast? with
  | Option.none => Option.none
  | some e => some (e, s.dropLast)

/-- The `Call` pop loop (`for _ in 0..n { ... stack.pop() ... }`): pop `n`
expressions, returning them in pop order, or `none` if a pop hits the empty
stack. -/
def vpopN : Nat → List Expr → Option (List Expr × List Expr)
  | 0, s => some ([], s)
  | n + 1, s =>
    match vpop s with
    | Option.none => Option.none
    | some (e, s1) =>
      match vpopN n s1 with
      | Option.none => Option.none
      | some (args, rest) => some (e :: args, rest)

/-- The state threaded through a block's evaluation: the symbolic stack and
the statement list accumulated so far. -/
structure EvalSt where
  stack : List Expr
  statements : List Statement
deriving DecidableEq, Repr

/-- One iteration of the `process_block` instruction match
(src/abstract_interpretation/eval.rs lines 68-163).  `ep` stands for the
missing `CodeObject::eval_place`. -/
def evalInstr (ep : UnresolvedPlace → Place) (st : EvalSt) (i : Instruction) :
    Except EvaluationError EvalSt :=
  match i with
  | .loadConst c => .ok { st with stack := st.stack ++ [.constant c] }
  | .load p => .ok { st with stack := st.stack ++ [.load (ep p)] }
  | .store p =>
    match vpop st.stack with
    | some (e, s) =>
      .ok { stack := s, statements := st.statements ++ [.store e (ep p)] }
    | Option.none => .error .poppedEmptyStack
  | .pop =>
    match vpop st.stack with
    | some (e, s) =>
      .ok { stack := s, statements := st.statements ++ [.trivial e] }
    | Option.none => .error .poppedEmptyStack
  | .copy n =>
    -- stack.get(stack.len() - 1 - n), the subtractions wrapping as usize
    match st.stack.get? (wsub64 (wsub64 st.stack.length 1) n) with
    | some v => .ok { st with stack := st.stack ++ [v] }
    | Option.none => .error .stackOpOutOfBounds
  | .swap n =>
    if n = 0 then .ok st
    else
      -- get_disjoint_mut([len - 1 - n, len - 1]); out-of-bounds or
      -- overlapping indices leave the stack unchanged (`continue`)
      let len := st.stack.length
      let i := wsub64 (wsub64 len 1) n
      let j := wsub64 len 1
      if h : i < len ∧ j < len ∧ i ≠ j then
        let a := st.stack.get ⟨i, h.1⟩
        let b := st.stack.get ⟨j, h.2.1⟩
        .ok { st with stack := (st.stack.set i b).set j a }
      else .ok st
  | .binaryOp op =>
    match vpop st.stack with
    | some (rhs, s1) =>
      match vpop s1 with
      | some (lhs, s2) =>
        .ok { st with stack := s2 ++ [.binaryOp op lhs rhs] }
      | Option.none => .error .poppedEmptyStack
    | Option.none => .error .poppedEmptyStack
  | .unaryOp op =>
    match vpop st.stack with
    | some (e, s) => .ok { st with stack := s ++ [.unaryOp op e] }
    | Option.none => .error .poppedEmptyStack
  | .jump .ifFalse target =>
    match vpop st.stack with
    | some (e, s) =>
      .ok { stack := s, statements := st.statements ++ [.ifStmt e target] }
    | Option.none => .error .poppedEmptyStack
  | .jump .always target =>
    .ok { st with statements := st.statements ++ [.jump target] }
  | .call n =>
    match vpopN n st.stack with
    | Option.none => .error .poppedEmptyStack
    | some (args, s1) =>
      match vpop s1 with
      | Option.none => .error .poppedEmptyStack
      | some (receiver, s2) =>
        match vpop s2 with
        | Option.none => .error .poppedEmptyStack
        | some (func, s3) =>
          .ok { st with
            stack := s3 ++ [.call func receiver (ExprList.ofList args)] }
  | .ret =>
    match vpop st.stack with
    | some (e, s) =>
      .ok { stack := s, statements := st.statements ++ [.ret e] }
    | Option.none => .error .poppedEmptyStack
  | .makeFunction =>
    match vpop st.stack with
    | some (e, s) => .ok { st with stack := s ++ [.makeFunction e] }
    | Option.none => .error .poppedEmptyStack
  | .coercion k =>
    match vpop st.stack with
    | some (e, s) => .ok { st with stack := s ++ [.coercion k e] }
    | Option.none => .error .poppedEmptyStack

/-- `EvalCtx::process_block`: evaluate the instructions of the half-open
range `bounds` with an initially empty stack, check the stack is empty at
the end, and synthesise the control-flow terminator from the last
statement. -/
def processBlock (ep : UnresolvedPlace → Place) (code : List Instruction)
    (bounds : Nat × Nat) : Except EvaluationError Block :=
  let blockCode := (code.drop bounds.1).take (bounds.2 - bounds.1)
  match blockCode.foldlM (evalInstr ep) ⟨[], []⟩ with
  | .error e => .error e
  | .ok st =>
    if st.stack ≠ [] then
      .error (.blockWithNonEmptyStack st.stack blockCode)
    else
      match st.statements.getLast? with
      | some (.ret _) => .ok ⟨st.statements, .terminates⟩
      | some (.ifStmt e ifFalse) =>
        .ok ⟨st.statements.dropLast, .condtionalJump bounds.2 ifFalse e⟩
      | some (.jump target) =>
        .ok ⟨st.statements.dropLast, .unconditional target⟩
      | _ =>
        if bounds.2 = code.length then .ok ⟨st.statements, .terminates⟩
        else .ok ⟨st.statements, .unconditional bounds.2⟩

/-- Insert into a sorted list (ascending). -/
def insertSorted (a : Nat) : List Nat → List Nat
  | [] => [a]
  | b :: t => if a ≤ b then a :: b :: t else b :: insertSorted a t

/-- Insertion sort (ascending). -/
def sortNat (l : List Nat) : List Nat := l.foldr insertSorted []

/-- Remove consecutive duplicates (sorted input yields the strictly
increasing enumeration of a `BTreeSet`). -/
def dedupSorted : List Nat → List Nat
  | [] => []
  | [a] => [a]
  | a :: b :: t =>
    if a = b then dedupSorted (b :: t) else a :: dedupSorted (b :: t)

/-- The boundary `BTreeSet` of `EvalCtx::blocks`, enumerated in ascending
order: 0, `code.len()`, and for each jump its target and successor index,
for each return its successor index. -/
def blockBoundaries (code : List Instruction) : List Nat :=
  let inserts := code.enum.foldr (fun p acc =>
    match p.2 with
    | .jump _ target => target :: (p.1 + 1) :: acc
    | .ret => (p.1 + 1) :: acc
    | _ => acc) []
  dedupSorted (sortNat (0 :: code.length :: inserts))

/-- Consecutive pairs of a list (the `reduce` at the end of
`EvalCtx::blocks`). -/
def consecutivePairs : List Nat → List (Nat × Nat)
  | a :: b :: t => (a, b) :: consecutivePairs (b :: t)
  | _ => []

/-- `EvalCtx::blocks`: the half-open ranges between consecutive
boundaries. -/
def blockRanges (code : List Instruction) : List (Nat × Nat) :=
  consecutivePairs (blockBoundaries code)

/-- `EvalCtx::go`: process every block in ascending range order,
accumulating the `start ↦ block` map (modelled as an association list in
insertion order); the first failing block aborts the whole run. -/
def goBlocks (ep : UnresolvedPlace → Place) (code : List Instruction) :
    Except EvaluationError (List (Nat × Block)) :=
  (blockRanges code).foldlM (fun acc r =>
    (processBlock ep code r).map (fun b => acc ++ [(r.1, b)])) []

/-- Modelled from the spec: `CodeObject::eval_place` lives in the `objects`
module, which is not among the provided sources.  Per spec §6 and
`Place::from_unresolved_unchecked` (src/abstract_interpretation/mod.rs),
`Local`, `Global` and `Cell` map to themselves; `Name(n)` is resolved
through the code object's symbol tables, which no claim below exercises
(rendered here as `global n`). -/
def specEvalPlace : UnresolvedPlace → Place
  | .local n => .local n
  | .global n => .global n
  | .cell n => .cell n
  | .name n => .global n

/-! ## The unmarshaller (src/unmarshal.rs)

`Unmarshaller` mutates itself in place, so partial mutations survive
errors (the dict loop relies on catching `FoundNull` after a key parse has
already consumed input and allocated placeholders).  Every parsing
function therefore returns the final state alongside the
success-or-error verdict, and takes a fuel argument (`none` = out of
fuel) to make the recursion structural.

`str::from_utf8` and `str::parse::<f64>` are standard-library behaviour,
not repository code; the parser is parameterised over the two predicates
(`StdOracles`) and every theorem below holds for all instantiations. -/

/-- `UnmarshalError` from src/unmarshal.rs. -/
inductive UnmarshalError where
  | unexpectedEof
  | invalidTag
  | decodingError
  | explicitUnknown
  | foundNull
  | danglingRef (n : Nat)
deriving DecidableEq, Repr

/-- `CodeObjectConstructor` from src/unmarshal.rs. -/
structure CodeObjectConstructor where
  argCount : Int
  posOnlyArgCount : Int
  kwOnlyArgCount : Int
  stackSize : Int
  flags : Int
  code : Nat
  consts : Nat
  names : Nat
  localsPlusNames : Nat
  localsPlusKinds : Nat
  filename : Nat
  name : Nat
  qualifiedName : Nat
  firstLineNo : Int
  lineTable : Nat
  exceptionTable : Nat
deriving DecidableEq, Repr

/-- `PyObject` from src/unmarshal.rs.  Object references are region
indices (`usize` in the source).  `f64` payloads are represented by their
raw source bytes: no claim inspects floating-point values. -/
inductive PyObject where
  | null
  | none
  | bool (b : Bool)
  | stopIter
  | ellipsis
  | smallInt (i : Int)
  | largeInt (digits : List Nat)
  | float (raw : List Nat)
  | complex (re im : List Nat)
  | bytes (bs : List Nat)
  | string (bs : List Nat)
  | tuple (elems : List Nat)
  | list (elems : List Nat)
  | dict (pairs : List (Nat × Nat))
  | set (elems : List Nat)
  | frozenset (elems : List Nat)
  | code (c : CodeObjectConstructor)
deriving DecidableEq, Repr

/-- The mutable state of `Unmarshaller`: the unread input, the object
region under construction, and the ref table. -/
structure UState where
  src : List Nat
  objects : List PyObject
  refables : List Nat
deriving DecidableEq, Repr

/-- Oracles for the two standard-library string operations the
unmarshaller uses: UTF-8 validity and `f64` literal parseability. -/
structure StdOracles where
  utf8ok : List Nat → Bool
  floatok : List Nat → Bool

/-- Little-endian unsigned value of a byte list. -/
def leU (l : List Nat) : Nat :=
  l.foldr (fun b acc => b + 256 * acc) 0

/-- Little-endian `i32` of a 4-byte list (bytes assumed < 256). -/
def leI32 (l : List Nat) : Int :=
  let u := leU l
  if u < 2147483648 then (u : Int) else (u : Int) - 4294967296

/-- Little-endian `i64` of an 8-byte list (bytes assumed < 256). -/
def leI64 (l : List Nat) : Int :=
  let u := leU l
  if u < 9223372036854775808 then (u : Int) else (u : Int) - u64size

/-- `Unmarshaller::get_byte`. -/
def getByte (st : UState) : Except UnmarshalError (Nat × UState) :=
  match st.src with
  | [] => .error .unexpectedEof
  | b :: rest => .ok (b, { st with src := rest })

/-- `Unmarshaller::get_bytes::<N>`. -/
def getBytesN (n : Nat) (st : UState) :
    Except UnmarshalError (List Nat × UState) :=
  if st.src.length < n then .error .unexpectedEof
  else .ok (st.src.take n, { st with src := st.src.drop n })

/-- `Unmarshaller::get_short_str`: one length byte then that many bytes. -/
def getShortStr (st : UState) : Except UnmarshalError (List Nat × UState) :=
  match getByte st with
  | .error e => .error e
  | .ok (len, st) =>
    if st.src.length < len then .error .unexpectedEof
    else .ok (st.src.take len, { st with src := st.src.drop len })

/-- `Unmarshaller::get_str`: a little-endian `u32` length prefix (read
unsigned!) then that many bytes. -/
def getStr (st : UState) : Except UnmarshalError (List Nat × UState) :=
  match getBytesN 4 st with
  | .error e => .error e
  | .ok (bs, st) =>
    let len := leU bs
    if st.src.length < len then .error .unexpectedEof
    else .ok (st.src.take len, { st with src := st.src.drop len })

/-- The shared leaf postlude of `Unmarshaller::parse_object` (lines
288-293): append the object, and append its index to the ref table when
the refable flag was set. -/
def leafResult (st : UState) (flag : Bool) (obj : PyObject) :
    (Except UnmarshalError Nat) × UState :=
  let idx := st.objects.length
  (.ok idx,
    { st with objects := st.objects ++ [obj],
              refables := if flag then st.refables ++ [idx] else st.refables })

/-- The four constructor arguments passed to
`Unmarshaller::parse_sequence` by `parse_object`: `Tuple` and `List`
store the indices as collected, `Set` and `FrozenSet` pass them through a
`BTreeSet` (ascending order, duplicates removed). -/
inductive SeqKind where
  | tupleK
  | listK
  | setK
  | frozenK
deriving DecidableEq, Repr

/-- Apply a sequence constructor to the collected element indices. -/
def applySeqCtor (k : SeqKind) (elems : List Nat) : PyObject :=
  match k with
  | .tupleK => .tuple elems
  | .listK => .list elems
  | .setK => .set (dedupSorted (sortNat elems))
  | .frozenK => .frozenset (dedupSorted (sortNat elems))

mutual
/-- `Unmarshaller::parse_object` (src/unmarshal.rs lines 196-294).  The
result pairs the verdict with the final state, since the Rust receiver is
mutated in place even when an error is returned.  `none` = out of fuel. -/
def parseObject (oc : StdOracles) (fuel : Nat) (st : UState) :
    Option ((Except UnmarshalError Nat) × UState) :=
  match fuel with
  | 0 => Option.none
  | fuel + 1 =>
    match getByte st with
    | .error e => some (.error e, st)
    | .ok (tag, st) =>
      let flag := tag &&& 128 != 0
      match tag &&& 127 with
      -- '0' Null
      | 48 => some (.error .foundNull, st)
      -- 'N' None
      | 78 => some (leafResult st flag .none)
      -- 'T' True
      | 84 => some (leafResult st flag (.bool true))
      -- 'F' False
      | 70 => some (leafResult st flag (.bool false))
      -- 'S' StopIter
      | 83 => some (leafResult st flag .stopIter)
      -- '.' Ellipsis
      | 46 => some (leafResult st flag .ellipsis)
      -- 'i' Int (LE i32)
      | 105 =>
        match getBytesN 4 st with
        | .error e => some (.error e, st)
        | .ok (bs, st) => some (leafResult st flag (.smallInt (leI32 bs)))
      -- 'I' Int64 (LE i64)
      | 73 =>
        match getBytesN 8 st with
        | .error e => some (.error e, st)
        | .ok (bs, st) => some (leafResult st flag (.smallInt (leI64 bs)))
      -- 'f' Float (short-string decimal), `parse_fstr`
      | 102 =>
        match getShortStr st with
        | .error e => some (.error e, st)
        | .ok (s, st) =>
          if oc.utf8ok s then
            if oc.floatok s then some (leafResult st flag (.float s))
            else some (.error .decodingError, st)
          else some (.error .decodingError, st)
      -- 'g' BinaryFloat (LE binary64)
      | 103 =>
        match getBytesN 8 st with
        | .error e => some (.error e, st)
        | .ok (bs, st) => some (leafResult st flag (.float bs))
      -- 'x' Complex (two short-string decimals), `parse_cstr`
      | 120 =>
        match getShortStr st with
        | .error e => some (.error e, st)
        | .ok (s1, st) =>
          if oc.utf8ok s1 then
            match getShortStr st with
            | .error e => some (.error e, st)
            | .ok (s2, st) =>
              if oc.utf8ok s2 then
                if oc.floatok s1 && oc.floatok s2 then
                  some (leafResult st flag (.complex s1 s2))
                else some (.error .decodingError, st)
              else some (.error .decodingError, st)
          else some (.error .decodingError, st)
      -- 'y' BinaryComplex (two LE binary64)
      | 121 =>
        match getBytesN 8 st with
        | .error e => some (.error e, st)
        | .ok (b1, st) =>
          match getBytesN 8 st with
          | .error e => some (.error e, st)
          | .ok (b2, st) => some (leafResult st flag (.complex b1 b2))
      -- 'l' Long (length-prefixed digit bytes)
      | 108 =>
        match getStr st with
        | .error e => some (.error e, st)
        | .ok (s, st) => some (leafResult st flag (.largeInt s))
      -- 's' String (raw bytes)
      | 115 =>
        match getStr st with
        | .error e => some (.error e, st)
        | .ok (s, st) => some (leafResult st flag (.bytes s))
      -- 't' Interned / 'u' Unicode, `parse_str`
      | 116 | 117 =>
        match getStr st with
        | .error e => some (.error e, st)
        | .ok (s, st) =>
          if oc.utf8ok s then some (leafResult st flag (.string s))
          else some (.error .decodingError, st)
      -- 'r' Ref (u32 index into the ref table); returns early, so the
      -- refable flag is ignored and nothing is appended anywhere
      | 114 =>
        match getBytesN 4 st with
        | .error e => some (.error e, st)
        | .ok (bs, st) =>
          let n := leU bs
          match st.refables.get? n with
          | some idx => some (.ok idx, st)
          | Option.none => some (.error (.danglingRef n), st)
      -- '(' Tuple, '[' List, '<' Set, '>' FrozenSet
      | 40 => parseSequence oc fuel st flag .tupleK
      | 91 => parseSequence oc fuel st flag .listK
      | 60 => parseSequence oc fuel st flag .setK
      | 62 => parseSequence oc fuel st flag .frozenK
      -- ')' SmallTuple (u8 length)
      | 41 =>
        match getByte st with
        | .error e => some (.error e, st)
        | .ok (n, st) =>
          let idx := st.objects.length
          let st := { st with
            refables := if flag then st.refables ++ [idx] else st.refables }
          let st := { st with objects := st.objects ++ [PyObject.null] }
          match parseList oc fuel n st with
          | Option.none => Option.none
          | some (.error e, st) => some (.error e, st)
          | some (.ok elems, st) =>
            some (.ok idx, { st with objects := st.objects.set idx (.tuple elems) })
      -- '{' Dict
      | 123 => parseDict oc fuel st flag
      -- 'c' Code
      | 99 => parseCode oc fuel st flag
      -- 'a' Ascii / 'A' AsciiInterned
      | 97 | 65 =>
        match getStr st with
        | .error e => some (.error e, st)
        | .ok (s, st) =>
          if oc.utf8ok s then some (leafResult st flag (.string s))
          else some (.error .decodingError, st)
      -- 'z' ShortAscii / 'Z' ShortAsciiInterned
      | 122 | 90 =>
        match getShortStr st with
        | .error e => some (.error e, st)
        | .ok (s, st) =>
          if oc.utf8ok s then some (leafResult st flag (.string s))
          else some (.error .decodingError, st)
      -- '?' Unknown
      | 63 => some (.error .explicitUnknown, st)
      | _ => some (.error .invalidTag, st)

/-- `Unmarshaller::parse_sequence`: reserve the slot, register the ref,
read the signed length, reject negatives, parse the children, finalize. -/
def parseSequence (oc : StdOracles) (fuel : Nat) (st : UState) (flag : Bool)
    (k : SeqKind) : Option ((Except UnmarshalError Nat) × UState) :=
  match fuel with
  | 0 => Option.none
  | fuel + 1 =>
    let idx := st.objects.length
    let st := { st with objects := st.objects ++ [PyObject.null] }
    let st := { st with
      refables := if flag then st.refables ++ [idx] else st.refables }
    match getBytesN 4 st with
    | .error e => some (.error e, st)
    | .ok (bs, st) =>
      if leI32 bs < 0 then some (.error .decodingError, st)
      else
        match parseList oc fuel (leU bs) st with
        | Option.none => Option.none
        | some (.error e, st) => some (.error e, st)
        | some (.ok elems, st) =>
          some (.ok idx,
            { st with objects := st.objects.set idx (applySeqCtor k elems) })

/-- `Unmarshaller::parse_list`: parse `len` objects, collecting their
indices. -/
def parseList (oc : StdOracles) (fuel : Nat) (len : Nat) (st : UState) :
    Option ((Except UnmarshalError (List Nat)) × UState) :=
  match fuel with
  | 0 => Option.none
  | fuel + 1 =>
    match len with
    | 0 => some (.ok [], st)
    | len + 1 =>
      match parseObject oc fuel st with
      | Option.none => Option.none
      | some (.error e, st) => some (.error e, st)
      | some (.ok idx, st) =>
        match parseList oc fuel len st with
        | Option.none => Option.none
        | some (.error e, st) => some (.error e, st)
        | some (.ok idxs, st) => some (.ok (idx :: idxs), st)

/-- `Unmarshaller::parse_dict`: reserve the slot, register the ref, run
the key/value loop, finalize. -/
def parseDict (oc : StdOracles) (fuel : Nat) (st : UState) (flag : Bool) :
    Option ((Except UnmarshalError Nat) × UState) :=
  match fuel with
  | 0 => Option.none
  | fuel + 1 =>
    let idx := st.objects.length
    let st := { st with
      refables := if flag then st.refables ++ [idx] else st.refables }
    let st := { st with objects := st.objects ++ [PyObject.null] }
    match parseDictLoop oc fuel st with
    | Option.none => Option.none
    | some (.error e, st) => some (.error e, st)
    | some (.ok pairs, st) =>
      some (.ok idx, { st with objects := st.objects.set idx (.dict pairs) })

/-- The key/value loop of `Unmarshaller::parse_dict`: a key parse failing
with `FoundNull` terminates the loop (keeping whatever state the aborted
key parse left behind); any other key error, and any value error,
propagates. -/
def parseDictLoop (oc : StdOracles) (fuel : Nat) (st : UState) :
    Option ((Except UnmarshalError (List (Nat × Nat))) × UState) :=
  match fuel with
  | 0 => Option.none
  | fuel + 1 =>
    match parseObject oc fuel st with
    | Option.none => Option.none
    | some (.error .foundNull, st) => some (.ok [], st)
    | some (.error e, st) => some (.error e, st)
    | some (.ok key, st) =>
      match parseObject oc fuel st with
      | Option.none => Option.none
      | some (.error e, st) => some (.error e, st)
      | some (.ok value, st) =>
        match parseDictLoop oc fuel st with
        | Option.none => Option.none
        | some (.error e, st) => some (.error e, st)
        | some (.ok pairs, st) => some (.ok ((key, value) :: pairs), st)

/-- `Unmarshaller::parse_code`: reserve the slot, register the ref, read
five LE `i32` fields, eight objects, one LE `i32`, two objects, finalize. -/
def parseCode (oc : StdOracles) (fuel : Nat) (st : UState) (flag : Bool) :
    Option ((Except UnmarshalError Nat) × UState) :=
  match fuel with
  | 0 => Option.none
  | fuel + 1 =>
    let idx := st.objects.length
    let st := { st with
      refables := if flag then st.refables ++ [idx] else st.refables }
    let st := { st with objects := st.objects ++ [PyObject.null] }
    match getBytesN 4 st with
    | .error e => some (.error e, st)
    | .ok (b1, st) =>
    match getBytesN 4 st with
    | .error e => some (.error e, st)
    | .ok (b2, st) =>
    match getBytesN 4 st with
    | .error e => some (.error e, st)
    | .ok (b3, st) =>
    match getBytesN 4 st with
    | .error e => some (.error e, st)
    | .ok (b4, st) =>
    match getBytesN 4 st with
    | .error e => some (.error e, st)
    | .ok (b5, st) =>
    match parseObject oc fuel st with
    | Option.none => Option.none
    | some (.error e, st) => some (.error e, st)
    | some (.ok codeIdx, st) =>
    match parseObject oc fuel st with
    | Option.none => Option.none
    | some (.error e, st) => some (.error e, st)
    | some (.ok constsIdx, st) =>
    match parseObject oc fuel st with
    | Option.none => Option.none
    | some (.error e, st) => some (.error e, st)
    | some (.ok namesIdx, st) =>
    match parseObject oc fuel st with
    | Option.none => Option.none
    | some (.error e, st) => some (.error e, st)
    | some (.ok lpnIdx, st) =>
    match parseObject oc fuel st with
    | Option.none => Option.none
    | some (.error e, st) => some (.error e, st)
    | some (.ok lpkIdx, st) =>
    match parseObject oc fuel st with
    | Option.none => Option.none
    | some (.error e, st) => some (.error e, st)
    | some (.ok fileIdx, st) =>
    match parseObject oc fuel st with
    | Option.none => Option.none
    | some (.error e, st) => some (.error e, st)
    | some (.ok nameIdx, st) =>
    match parseObject oc fuel st with
    | Option.none => Option.none
    | some (.error e, st) => some (.error e, st)
    | some (.ok qualIdx, st) =>
    match getBytesN 4 st with
    | .error e => some (.error e, st)
    | .ok (b6, st) =>
    match parseObject oc fuel st with
    | Option.none => Option.none
    | some (.error e, st) => some (.error e, st)
    | some (.ok ltIdx, st) =>
    match parseObject oc fuel st with
    | Option.none => Option.none
    | some (.error e, st) => some (.error e, st)
    | some (.ok etIdx, st) =>
      let obj : CodeObjectConstructor :=
        { argCount := leI32 b1, posOnlyArgCount := leI32 b2,
          kwOnlyArgCount := leI32 b3, stackSize := leI32 b4,
          flags := leI32 b5, code := codeIdx, consts := constsIdx,
          names := namesIdx, localsPlusNames := lpnIdx,
          localsPlusKinds := lpkIdx, filename := fileIdx, name := nameIdx,
          qualifiedName := qualIdx, firstLineNo := leI32 b6,
          lineTable := ltIdx, exceptionTable := etIdx }
      some (.ok idx, { st with objects := st.objects.set idx (.code obj) })
end

/-- The overall outcome of `Unmarshaller::loads`: a region, an error, or
the failure of the `assert_eq!(obj.0, 0)` root-index assertion. -/
inductive LoadsOutcome where
  | ok (region : List PyObject)
  | err (e : UnmarshalError)
  | assertFailed
deriving DecidableEq, Repr

/-- `Unmarshaller::loads`. -/
def loads (oc : StdOracles) (fuel : Nat) (src : List Nat) :
    Option LoadsOutcome :=
  match parseObject oc fuel ⟨src, [], []⟩ with
  | Option.none => Option.none
  | some (.error e, _) => some (.err e)
  | some (.ok idx, st) =>
    if idx = 0 then some (.ok st.objects) else some .assertFailed

/-- The object indices stored inside a region entry (container elements,
dict key/value pairs, and the eleven object fields of a code object). -/
def containerIndices : PyObject → List Nat
  | .tuple l => l
  | .list l => l
  | .set l => l
  | .frozenset l => l
  | .dict ps => ps.foldr (fun p acc => p.1 :: p.2 :: acc) []
  | .code c =>
    [c.code, c.consts, c.names, c.localsPlusNames, c.localsPlusKinds,
     c.filename, c.name, c.qualifiedName, c.lineTable, c.exceptionTable]
  | _ => []

/-- Every index stored inside any entry of the region resolves to an
existing entry. -/
def regionIndicesValid (reg : List PyObject) : Prop :=
  ∀ o ∈ reg, ∀ i ∈ containerIndices o, i < reg.length

/-- The unmarshaller's construction invariant: every ref-table entry and
every index stored inside any region entry points below the region's
current length. -/
def regOk (objs : List PyObject) (refs : List Nat) : Prop :=
  (∀ r ∈ refs, r < objs.length) ∧
  (∀ o ∈ objs, ∀ i ∈ containerIndices o, i < objs.length)

/-- What a `parseObject` call guarantees (for the fuel induction): the
construction invariant is preserved (also across error returns, which the
dict loop resumes from), the region only grows, and a returned index is in
range and is either the entry length (a fresh slot) or one of the entry
ref-table entries (the `Ref` case). -/
def ObjSpec (oc : StdOracles) (fuel : Nat) : Prop :=
  ∀ st res st', parseObject oc fuel st = some (res, st') →
    regOk st.objects st.refables →
    regOk st'.objects st'.refables ∧
    st.objects.length ≤ st'.objects.length ∧
    ∀ idx, res = .ok idx → idx < st'.objects.length ∧
      (idx = st.objects.length ∨ idx ∈ st.refables)

/-- What a `parseSequence` call guarantees (see `ObjSpec`); the returned
index is always the reserved slot, the entry length. -/
def SeqSpec (oc : StdOracles) (fuel : Nat) : Prop :=
  ∀ st flag k res st', parseSequence oc fuel st flag k = some (res, st') →
    regOk st.objects st.refables →
    regOk st'.objects st'.refables ∧
    st.objects.length ≤ st'.objects.length ∧
    ∀ idx, res = .ok idx → idx < st'.objects.length ∧ idx = st.objects.length

/-- What a `parseList` call guarantees (see `ObjSpec`): all returned
element indices are in range of the final region. -/
def ListSpec (oc : StdOracles) (fuel : Nat) : Prop :=
  ∀ len st res st', parseList oc fuel len st = some (res, st') →
    regOk st.objects st.refables →
    regOk st'.objects st'.refables ∧
    st.objects.length ≤ st'.objects.length ∧
    ∀ idxs, res = .ok idxs → ∀ i ∈ idxs, i < st'.objects.length

/-- What a `parseDict` call guarantees (see `SeqSpec`). -/
def DictSpec (oc : StdOracles) (fuel : Nat) : Prop :=
  ∀ st flag res st', parseDict oc fuel st flag = some (res, st') →
    regOk st.objects st.refables →
    regOk st'.objects st'.refables ∧
    st.objects.length ≤ st'.objects.length ∧
    ∀ idx, res = .ok idx → idx < st'.objects.length ∧ idx = st.objects.length

/-- What a `parseDictLoop` call guarantees (see `ObjSpec`): all returned
key/value indices are in range of the final region. -/
def DictLoopSpec (oc : StdOracles) (fuel : Nat) : Prop :=
  ∀ st res st', parseDictLoop oc fuel st = some (res, st') →
    regOk st.objects st.refables →
    regOk st'.objects st'.refables ∧
    st.objects.length ≤ st'.objects.length ∧
    ∀ prs, res = .ok prs → ∀ pr ∈ prs,
      pr.1 < st'.objects.length ∧ pr.2 < st'.objects.length

/-- What a `parseCode` call guarantees (see `SeqSpec`). -/
def CodeSpec (oc : StdOracles) (fuel : Nat) : Prop :=
  ∀ st flag res st', parseCode oc fuel st flag = some (res, st') →
    regOk st.objects st.refables →
    regOk st'.objects st'.refables ∧
    st.objects.length ≤ st'.objects.length ∧
    ∀ idx, res = .ok idx → idx < st'.objects.length ∧ idx = st.objects.length

/-- A concrete oracle instantiation (everything is valid UTF-8 and a valid
float literal) used by closed witness statements. -/
def allTrueOracles : StdOracles := ⟨fun _ => true, fun _ => true⟩

/-- A concrete oracle instantiation (nothing validates) used to show
counterexamples do not depend on the oracle choice. -/
def allFalseOracles : StdOracles := ⟨fun _ => false, fun _ => false⟩

/-! ## Claim theorems

Each claim of the specification gets exactly one main theorem below
(plus, where required, a witness and a counterexample). -/

/-- C1: the claim states that after target rewriting every jump target is
the position, in the emitted list, of the first emitted instruction whose
original raw pair index is `≥` the raw target, the mapping table recording
the original pair index for *every* emitted instruction including the
extra instructions of desugared jumps.  The code violates this: opcodes
101/102/103 append their prefix instructions with a bare `out.push`
(no mapping entry).  On the stream `[102,0, 35,0, 35,0]` the jump with raw
target 2 is rewritten to position 2 — the jump itself (emitted from pair
0) — whereas the first instruction emitted from a pair index `≥ 2` is the
final `Return` at position 4. -/
theorem c1_desugared_jump_target_divergence :
    parse314 [102, 0, 35, 0, 35, 0] =
      some (.ok [.loadConst .none, .binaryOp .is, .jump .ifFalse 2,
                 .ret, .ret]) ∧
    ([Instruction.loadConst .none, .binaryOp .is, .jump .ifFalse 2,
      .ret, .ret].get? 2 = some (.jump .ifFalse 2)) ∧
    ([Instruction.loadConst .none, .binaryOp .is, .jump .ifFalse 2,
      .ret, .ret].get? 4 = some .ret) := by
  refine ⟨rfl, rfl, rfl⟩

/-- C4 counterexample: evaluating
`[LoadConst 1, LoadConst 2, LoadConst 3, LoadConst 4, Call 2, Pop]` stores
the call arguments as `[4, 3]` — `args[0]` is the *first* expression
popped (the previous top of stack, the constant 4), not the last popped as
the claim states (which would give `[3, 4]`). -/
theorem c4_counterexample_call_args_pop_order :
    processBlock specEvalPlace
      [.loadConst (.smallInt 1), .loadConst (.smallInt 2),
       .loadConst (.smallInt 3), .loadConst (.smallInt 4), .call 2, .pop]
      (0, 6) =
      .ok ⟨[.trivial (.call (.constant (.smallInt 1))
              (.constant (.smallInt 2))
              (.cons (.constant (.smallInt 4))
                (.cons (.constant (.smallInt 3)) .nil)))], .terminates⟩ ∧
    ExprList.cons (Expr.constant (.smallInt 4))
        (.cons (.constant (.smallInt 3)) .nil) ≠
      ExprList.cons (Expr.constant (.smallInt 3))
        (.cons (.constant (.smallInt 4)) .nil) := by
  exact ⟨rfl, by decide⟩

/-- C4 (amended): `Call(n)` pops `n` argument expressions, then a
receiver, then a func, and the stored `args` array lists the arguments in
pop order: `args[0]` is the first one popped (the previous top of stack)
and `args[n-1]` is the last one popped (the deepest).  With the stack
modelled bottom-first (Vec order), the top `n` elements `argsSeg` are
stored reversed. -/
theorem c4_amended_call_pops_and_arg_order
    (ep : UnresolvedPlace → Place) (n : Nat) (pre argsSeg : List Expr)
    (func receiver : Expr) (stmts : List Statement)
    (hlen : argsSeg.length = n) :
    evalInstr ep ⟨pre ++ func :: receiver :: argsSeg, stmts⟩ (.call n) =
      .ok ⟨pre ++ [.call func receiver (ExprList.ofList argsSeg.reverse)],
           stmts⟩ := by
  have hpopN : ∀ (k : Nat) (seg rest : List Expr), seg.length = k →
      vpopN k (rest ++ seg) = some (seg.reverse, rest) := by
    intro k
    induction k with
    | zero =>
      intro seg rest hseg
      rw [List.length_eq_zero] at hseg
      subst hseg
      simp [vpopN]
    | succ m ih =>
      intro seg rest hseg
      rcases seg.eq_nil_or_concat with rfl | ⟨ys, y, rfl⟩
      · simp at hseg
      · simp only [List.concat_eq_append] at hseg ⊢
        have hys : ys.length = m := by
          simpa using hseg
        have hvp : vpop (rest ++ (ys ++ [y])) = some (y, rest ++ ys) := by
          simp [vpop, ← List.append_assoc]
        simp only [vpopN, hvp]
        rw [ih ys rest hys]
        simp
  have h1 : vpopN n ((pre ++ [func, receiver]) ++ argsSeg) =
      some (argsSeg.reverse, pre ++ [func, receiver]) :=
    hpopN n argsSeg (pre ++ [func, receiver]) hlen
  have h2 : pre ++ func :: receiver :: argsSeg =
      (pre ++ [func, receiver]) ++ argsSeg := by simp
  have h3 : vpop (pre ++ [func, receiver]) =
      some (receiver, pre ++ [func]) := by
    simp [vpop, ← List.append_assoc]
  have h4 : vpop (pre ++ [func]) = some (func, pre) := by
    simp [vpop]
  simp only [evalInstr, h2, h1, h3, h4]

/-- C4 witness: the amended theorem applied at a concrete two-argument
call. -/
theorem c4_witness :
    evalInstr specEvalPlace
      ⟨[.constant (.smallInt 1), .constant (.smallInt 2),
        .constant (.smallInt 3), .constant (.smallInt 4)], []⟩ (.call 2) =
      .ok ⟨[.call (.constant (.smallInt 1)) (.constant (.smallInt 2))
             (.cons (.constant (.smallInt 4))
               (.cons (.constant (.smallInt 3)) .nil))], []⟩ := by
  have h := c4_amended_call_pops_and_arg_order specEvalPlace 2 []
    [.constant (.smallInt 3), .constant (.smallInt 4)]
    (.constant (.smallInt 1)) (.constant (.smallInt 2)) [] rfl
  simpa [ExprList.ofList] using h

/-- C5 counterexample: on the claimed stream the block starting at 0 is
`[Load, BinaryOp, Jump(Always, 5)]`; its `BinaryOp` pops two expressions
from a one-element stack, so block evaluation fails with
`PoppedEmptyStack` and the block at 0 never receives the claimed
`Unconditional(5)` terminator (the whole run errors). -/
theorem c5_counterexample_first_block_pops_empty :
    processBlock specEvalPlace
      [.load (.local 0), .binaryOp .add, .jump .always 5, .load (.local 0),
       .pop, .load (.local 0), .ret] (0, 3) = .error .poppedEmptyStack ∧
    goBlocks specEvalPlace
      [.load (.local 0), .binaryOp .add, .jump .always 5, .load (.local 0),
       .pop, .load (.local 0), .ret] = .error .poppedEmptyStack := by
  exact ⟨rfl, rfl⟩

/-- C5 (amended): the stream `[Load, BinaryOp, Jump(Always,5), Load, Pop,
Load, Return]` of length 7 produces boundaries `{0,3,5,7}` and three block
ranges; the block at 3 falls through with terminator `Unconditional(5)`
and the block at 5 has terminator `Terminates`, as claimed, but symbolic
evaluation of the block at 0 fails with `PoppedEmptyStack` (its `BinaryOp`
pops two expressions with one on the stack), so no terminator is produced
for it and the interpreter as a whole returns that error. -/
theorem c5_amended_boundaries_and_blocks :
    blockBoundaries
      [Instruction.load (.local 0), .binaryOp .add, .jump .always 5,
       .load (.local 0), .pop, .load (.local 0), .ret] = [0, 3, 5, 7] ∧
    blockRanges
      [Instruction.load (.local 0), .binaryOp .add, .jump .always 5,
       .load (.local 0), .pop, .load (.local 0), .ret] =
      [(0, 3), (3, 5), (5, 7)] ∧
    processBlock specEvalPlace
      [.load (.local 0), .binaryOp .add, .jump .always 5, .load (.local 0),
       .pop, .load (.local 0), .ret] (3, 5) =
      .ok ⟨[.trivial (.load (.local 0))], .unconditional 5⟩ ∧
    processBlock specEvalPlace
      [.load (.local 0), .binaryOp .add, .jump .always 5, .load (.local 0),
       .pop, .load (.local 0), .ret] (5, 7) =
      .ok ⟨[.ret (.load (.local 0))], .terminates⟩ ∧
    processBlock specEvalPlace
      [.load (.local 0), .binaryOp .add, .jump .always 5, .load (.local 0),
       .pop, .load (.local 0), .ret] (0, 3) = .error .poppedEmptyStack := by
  refine ⟨rfl, rfl, rfl, rfl, rfl⟩

/-- Wrapping `usize` subtraction computes the exact difference when it
does not underflow. -/
theorem wsub64_eq_sub (a b : Nat) (hb : b ≤ a) (ha : a < u64size) :
    wsub64 a b = a - b := by
  unfold wsub64 u64size
  unfold u64size at ha
  omega

/-- Wrapping `usize` subtraction underflows to a huge value when `b`
exceeds `a` (for `b` below `2^32`, the result is at least
`2^64 - 2^32`). -/
theorem wsub64_underflow (a b : Nat) (hab : a < b) (hb : b < 4294967296) :
    18446744069414584320 ≤ wsub64 a b := by
  unfold wsub64 u64size
  omega

/-- C7: `Copy(n)` pushes a clone of the stack element `n` slots below the
top when `n` is in range (`n = 0` duplicates the top), and returns
`StackOpOutOfBounds` when `n ≥` the stack length — including on the empty
stack — never aborting.  The index `stack.len() - 1 - n` is computed with
the wrapping (release-profile) `usize` semantics; `n` is a `u32` and the
stack length is bounded by Rust's allocation limit (`< 2^61`), so the
wrapped index falls off the stack whenever `n` is out of range. -/
theorem c7_copy_semantics (ep : UnresolvedPlace → Place) (s : List Expr)
    (stmts : List Statement) (n : Nat) (hn : n < 4294967296)
    (hs : s.length < 2305843009213693952) :
    (∀ h : n < s.length,
       evalInstr ep ⟨s, stmts⟩ (.copy n) =
         .ok ⟨s ++ [s.get ⟨s.length - 1 - n, by omega⟩], stmts⟩) ∧
    (s.length ≤ n →
       evalInstr ep ⟨s, stmts⟩ (.copy n) = .error .stackOpOutOfBounds) := by
  constructor
  · intro h
    have h1 : wsub64 s.length 1 = s.length - 1 :=
      wsub64_eq_sub s.length 1 (by omega) (by unfold u64size; omega)
    have h2 : wsub64 (s.length - 1) n = s.length - 1 - n :=
      wsub64_eq_sub (s.length - 1) n (by omega) (by unfold u64size; omega)
    have hg : s.get? (s.length - 1 - n) = some (s.get ⟨s.length - 1 - n, by omega⟩) :=
      List.get?_eq_get (by omega)
    simp only [evalInstr, h1, h2, hg]
  · intro h
    have hidx : s.length ≤ wsub64 (wsub64 s.length 1) n := by
      rcases Nat.eq_zero_or_pos s.length with h0 | h0
      · have h1 : wsub64 s.length 1 = u64size - 1 := by
          unfold wsub64 u64size
          omega
        rw [h1]
        have h2 : wsub64 (u64size - 1) n = u64size - 1 - n :=
          wsub64_eq_sub (u64size - 1) n (by unfold u64size; omega)
            (by unfold u64size; omega)
        rw [h2]
        unfold u64size
        omega
      · have h1 : wsub64 s.length 1 = s.length - 1 :=
          wsub64_eq_sub s.length 1 h0 (by unfold u64size; omega)
        rw [h1]
        rcases Nat.lt_or_ge (s.length - 1) n with hlt | hge
        · have h2 := wsub64_underflow (s.length - 1) n hlt hn
          omega
        · -- n ≤ len - 1 together with len ≤ n contradicts 0 < len
          omega
    have hg : s.get? (wsub64 (wsub64 s.length 1) n) = Option.none :=
      List.get?_eq_none.2 hidx
    simp only [evalInstr, hg]

/-- C7 witness: the theorem applied on a one-element stack, once in range
(`Copy(0)` duplicates the top) and once out of range (`Copy(5)` errors). -/
theorem c7_witness :
    evalInstr specEvalPlace ⟨[.constant (.smallInt 1)], []⟩ (.copy 0) =
      .ok ⟨[.constant (.smallInt 1), .constant (.smallInt 1)], []⟩ ∧
    evalInstr specEvalPlace ⟨[.constant (.smallInt 1)], []⟩ (.copy 5) =
      .error .stackOpOutOfBounds := by
  have h0 := c7_copy_semantics specEvalPlace [.constant (.smallInt 1)] [] 0
    (by decide) (by decide)
  have h5 := c7_copy_semantics specEvalPlace [.constant (.smallInt 1)] [] 5
    (by decide) (by decide)
  exact ⟨by simpa using h0.1 (by decide), h5.2 (by decide)⟩

/-- C8: every occurrence of opcode 114 with effective argument `a` emits
exactly two `Store` instructions into `Local` places: the first with index
`a >> 4` and the second with index `a * 15` (the multiplication quirk, a
`u32` product, not `a & 15`), recording the pair index twice in the
mapping and resetting the extension. -/
theorem c8_store_nibble_quirk (codeLen : Nat) (st : PState) (b : Nat) :
    pstep codeLen st (114, b) =
      .ok { out := st.out ++
              [.store (.local (((b + st.argExtension) % u32size) >>> 4)),
               .store (.local ((((b + st.argExtension) % u32size) * 15) % u32size))],
            mapping := st.mapping ++ [st.instructionCount, st.instructionCount],
            argExtension := 0,
            instructionCount := st.instructionCount + 1 } := by
  simp [pstep, pstepCore, extendArg, pushInstr, Except.map]

/-- C9: parsing a `Ref` tag (low seven bits `'r'` = 114, with or without
the refable flag bit) whose 4-byte index decodes to `n` returns the region
index stored in the `n`-th ref-table entry when `n` is in range, and fails
with `DanglingRef(n)` when `n ≥` the table length; in both cases the
object region and the ref table are left unchanged (only the five input
bytes are consumed) — nothing is appended anywhere, regardless of the
flag bit. -/
theorem c9_ref_semantics (oc : StdOracles) (fuel : Nat)
    (objs : List PyObject) (refs : List Nat)
    (t b0 b1 b2 b3 : Nat) (rest : List Nat) (htag : t &&& 127 = 114) :
    (∀ h : leU [b0, b1, b2, b3] < refs.length,
       parseObject oc (fuel + 1) ⟨t :: b0 :: b1 :: b2 :: b3 :: rest, objs, refs⟩ =
         some (.ok (refs.get ⟨leU [b0, b1, b2, b3], h⟩), ⟨rest, objs, refs⟩)) ∧
    (refs.length ≤ leU [b0, b1, b2, b3] →
       parseObject oc (fuel + 1) ⟨t :: b0 :: b1 :: b2 :: b3 :: rest, objs, refs⟩ =
         some (.error (.danglingRef (leU [b0, b1, b2, b3])), ⟨rest, objs, refs⟩)) := by
  have hby : getByte ⟨t :: b0 :: b1 :: b2 :: b3 :: rest, objs, refs⟩ =
      .ok (t, ⟨b0 :: b1 :: b2 :: b3 :: rest, objs, refs⟩) := rfl
  have hbs : getBytesN 4 ⟨b0 :: b1 :: b2 :: b3 :: rest, objs, refs⟩ =
      .ok ([b0, b1, b2, b3], ⟨rest, objs, refs⟩) := by
    simp [getBytesN]
  constructor
  · intro h
    have hget : refs.get? (leU [b0, b1, b2, b3]) =
        some (refs.get ⟨leU [b0, b1, b2, b3], h⟩) := List.get?_eq_get h
    simp only [parseObject, hby, htag, hbs, hget]
  · intro h
    have hget : refs.get? (leU [b0, b1, b2, b3]) = Option.none :=
      List.get?_eq_none.2 h
    simp only [parseObject, hby, htag, hbs, hget]

/-- C9 witness: a flagged `Ref` (tag byte `0xF2`) with index 1 into a
two-entry ref table resolves to entry 9 without touching the state, and an
unflagged `Ref` with index 0 into an empty table dangles. -/
theorem c9_witness :
    parseObject allTrueOracles 3 ⟨[242, 1, 0, 0, 0, 5], [.none], [7, 9]⟩ =
      some (.ok 9, ⟨[5], [.none], [7, 9]⟩) ∧
    parseObject allTrueOracles 3 ⟨[114, 0, 0, 0, 0], [], []⟩ =
      some (.error (.danglingRef 0), ⟨[], [], []⟩) := by
  have h1 := (c9_ref_semantics allTrueOracles 2 [.none] [7, 9]
    242 1 0 0 0 [5] (by decide)).1 (by decide)
  have h2 := (c9_ref_semantics allTrueOracles 2 [] []
    114 0 0 0 0 [] (by decide)).2 (by decide)
  refine ⟨by simpa using h1, by simpa using h2⟩

/-- C6 counterexample: a `Long` (`'l'`) object whose 4-byte length prefix
is `0xFFFFFFFF` (signed value −1) makes `loads` fail with
`UnexpectedEof`, not the claimed `DecodingError`: `get_str` reads the
prefix as an unsigned `u32` and merely runs off the end of the input. -/
theorem c6_counterexample_long_negative_length_eof :
    loads allTrueOracles 5 [108, 255, 255, 255, 255] =
      some (.err .unexpectedEof) ∧
    UnmarshalError.unexpectedEof ≠ UnmarshalError.decodingError := by
  exact ⟨rfl, by decide⟩

/-- C6 (amended): a 4-byte little-endian length prefix decoding to a
negative signed 32-bit value yields `DecodingError` for the sequence
objects (Tuple `'('`, List `'['`, Set `'<'`, FrozenSet `'>'`), whose
parser reads it as an `i32` and checks the sign; but for the string-like
objects (Long `'l'`, String `'s'`, Interned `'t'`, Unicode `'u'`, Ascii
`'a'`, AsciiInterned `'A'`) the prefix is read as an unsigned `u32`, so a
"negative" prefix acts as a huge length and produces `UnexpectedEof`
whenever fewer bytes remain. -/
theorem c6_amended_negative_length_behaviour (oc : StdOracles) (fuel : Nat)
    (objs : List PyObject) (refs : List Nat)
    (t b0 b1 b2 b3 : Nat) (rest : List Nat)
    (hneg : leI32 [b0, b1, b2, b3] < 0) :
    ((t &&& 127 = 40 ∨ t &&& 127 = 91 ∨ t &&& 127 = 60 ∨ t &&& 127 = 62) →
       ∃ st', parseObject oc (fuel + 2)
           ⟨t :: b0 :: b1 :: b2 :: b3 :: rest, objs, refs⟩ =
         some (.error .decodingError, st')) ∧
    ((t &&& 127 = 108 ∨ t &&& 127 = 115 ∨ t &&& 127 = 116 ∨
      t &&& 127 = 117 ∨ t &&& 127 = 97 ∨ t &&& 127 = 65) →
       rest.length < leU [b0, b1, b2, b3] →
       ∃ st', parseObject oc (fuel + 2)
           ⟨t :: b0 :: b1 :: b2 :: b3 :: rest, objs, refs⟩ =
         some (.error .unexpectedEof, st')) := by
  have hby : getByte ⟨t :: b0 :: b1 :: b2 :: b3 :: rest, objs, refs⟩ =
      .ok (t, ⟨b0 :: b1 :: b2 :: b3 :: rest, objs, refs⟩) := rfl
  have hbs : ∀ o r, getBytesN 4
      (⟨b0 :: b1 :: b2 :: b3 :: rest, o, r⟩ : UState) =
      .ok ([b0, b1, b2, b3], ⟨rest, o, r⟩) := by
    intro o r
    simp [getBytesN]
  constructor
  · intro ht
    have hseq : ∀ k, parseSequence oc (fuel + 1)
        ⟨b0 :: b1 :: b2 :: b3 :: rest, objs, refs⟩ (t &&& 128 != 0) k =
        some (.error .decodingError,
          ⟨rest, objs ++ [PyObject.null],
           if (t &&& 128 != 0) then refs ++ [objs.length] else refs⟩) := by
      intro k
      simp only [parseSequence, hbs, hneg, if_pos]
    rcases ht with h | h | h | h <;>
      exact ⟨_, by simp only [parseObject, hby, h]; exact hseq _⟩
  · intro ht hlen
    have hstr : ∀ o r, getStr (⟨b0 :: b1 :: b2 :: b3 :: rest, o, r⟩ : UState) =
        .error .unexpectedEof := by
      intro o r
      simp only [getStr, hbs]
      simp [hlen]
    rcases ht with h | h | h | h | h | h <;>
      exact ⟨⟨b0 :: b1 :: b2 :: b3 :: rest, objs, refs⟩,
        by simp only [parseObject, hby, h, hstr]⟩

/-- C6 witness: the amended theorem applied to a `Tuple` and to a `Long`
with the length prefix `0xFFFFFFFF` (signed −1). -/
theorem c6_witness :
    (∃ st', parseObject allTrueOracles 2
        ⟨[40, 255, 255, 255, 255], [], []⟩ =
      some (.error .decodingError, st')) ∧
    (∃ st', parseObject allTrueOracles 2
        ⟨[108, 255, 255, 255, 255], [], []⟩ =
      some (.error .unexpectedEof, st')) := by
  have h1 := (c6_amended_negative_length_behaviour allTrueOracles 0 [] []
    40 255 255 255 255 [] (by decide)).1 (by decide)
  have h2 := (c6_amended_negative_length_behaviour allTrueOracles 0 [] []
    108 255 255 255 255 [] (by decide)).2 (by decide) (by decide)
  exact ⟨h1, h2⟩

/-- Decompose a successful `Except` bind. -/
theorem exceptBind_ok {ε α β : Type} (a : Except ε α) (f : α → Except ε β)
    (v : β) (h : (a >>= f) = .ok v) : ∃ w, a = .ok w ∧ f w = .ok v := by
  cases a with
  | error e => simp [Bind.bind, Except.bind] at h
  | ok w => exact ⟨w, rfl, by simpa [Bind.bind, Except.bind] using h⟩

/-- Unfold one successful step of the lifter fold. -/
theorem pfold_cons (cl : Nat) (p : Nat × Nat) (l : List (Nat × Nat))
    (st st2 : PState) (h : pstep cl st p = .ok st2) :
    pfold cl (p :: l) st = pfold cl l st2 := by
  simp [pfold, List.foldlM_cons, h, Bind.bind, Except.bind]

/-- Folding the lifter over a run of extend-args pairs whose intermediate
accumulations all pass the overflow check accumulates the pure value
`foldl (fun x e => (x + e) * 256)` without emitting anything: the `u32`
reductions never bite because the accumulator is always a multiple of 256
bounded by `2^32 - 256`. -/
theorem pfold_extends (cl : Nat) (es : List Nat) (st : PState)
    (hb : ∀ e ∈ es, e < 256) (hdvd : 256 ∣ st.argExtension)
    (hle : st.argExtension ≤ 4294967040)
    (hpre : ∀ i < es.length,
        (es.take i).foldl (fun x e => (x + e) * 256) st.argExtension ≤ 16777215) :
    pfold cl (es.map (fun e => (69, e))) st =
      .ok { st with
        argExtension := es.foldl (fun x e => (x + e) * 256) st.argExtension,
        instructionCount := st.instructionCount + es.length } ∧
    256 ∣ es.foldl (fun x e => (x + e) * 256) st.argExtension ∧
    es.foldl (fun x e => (x + e) * 256) st.argExtension ≤ 4294967040 := by
  induction es generalizing st with
  | nil =>
    refine ⟨?_, hdvd, hle⟩
    simp only [List.map_nil, List.foldl_nil, List.length_nil, Nat.add_zero]
    rfl
  | cons e tl ih =>
    have h0 : st.argExtension ≤ 16777215 := by
      have := hpre 0 (by simp)
      simpa using this
    have hex : st.argExtension ≤ 16776960 := by
      rcases hdvd with ⟨c, hc⟩
      omega
    have he : e < 256 := hb e (by simp)
    have hstep : pstep cl st (69, e) =
        .ok { st with argExtension := (st.argExtension + e) * 256,
                      instructionCount := st.instructionCount + 1 } := by
      have hnotover : ¬ (16777215 < st.argExtension) := by omega
      have h1 : (st.argExtension + e) % u32size = st.argExtension + e :=
        Nat.mod_eq_of_lt (by unfold u32size; omega)
      have h2 : ((st.argExtension + e) * 256) % u32size =
          (st.argExtension + e) * 256 :=
        Nat.mod_eq_of_lt (by unfold u32size; omega)
      simp [pstep, pstepCore, hnotover, h1, h2, Except.map]
    have hrw := pfold_cons cl (69, e) (tl.map (fun e => (69, e))) st _ hstep
    have ihr := ih { st with argExtension := (st.argExtension + e) * 256,
                             instructionCount := st.instructionCount + 1 }
      (fun x hx => hb x (by simp [hx]))
      (by show (256 : Nat) ∣ (st.argExtension + e) * 256
          exact ⟨st.argExtension + e, by ring⟩)
      (by show (st.argExtension + e) * 256 ≤ 4294967040
          omega)
      (by intro i hi
          show (tl.take i).foldl (fun x e => (x + e) * 256)
              ((st.argExtension + e) * 256) ≤ 16777215
          have h3 := hpre (i + 1) (by simpa using Nat.succ_lt_succ hi)
          simpa [List.take_succ_cons] using h3)
    refine ⟨?_, ?_, ?_⟩
    · rw [List.map_cons, hrw, ihr.1]
      have hic : st.instructionCount + 1 + tl.length =
          st.instructionCount + (tl.length + 1) := by omega
      simp [List.foldl_cons, hic]
    · simpa [List.foldl_cons] using ihr.2.1
    · simpa [List.foldl_cons] using ihr.2.2


/-- The code's accumulate-then-shift fold, seeded with a byte-shifted
accumulator and followed by adding a final byte, equals the claim's
shift-then-add fold over the extension bytes plus the final byte. -/
theorem foldl_shift_bridge (es : List Nat) (c b : Nat) :
    es.foldl (fun x e => (x + e) * 256) (c * 256) + b =
      (es ++ [b]).foldl (fun x y => x * 256 + y) c := by
  induction es generalizing c with
  | nil => simp
  | cons e tl ih =>
    simp only [List.foldl_cons, List.cons_append]
    have h := ih (c * 256 + e)
    simpa using h

/-- Lifting a run of in-range extend-args pairs followed by one final
pair whose step emits a single non-jump instruction from the accumulated
extension yields exactly that instruction. -/
theorem parse314pairs_extends_single (es : List Nat) (p : Nat × Nat)
    (instr : Instruction)
    (hb : ∀ e ∈ es, e < 256)
    (hpre : ∀ i < es.length,
        (es.take i).foldl (fun x e => (x + e) * 256) 0 ≤ 16777215)
    (hstep : ∀ cl, pstep cl
        (⟨[], [], es.foldl (fun x e => (x + e) * 256) 0, es.length⟩ : PState)
        p =
        .ok { out := [instr], mapping := [es.length], argExtension := 0,
              instructionCount := es.length + 1 })
    (hnj : ∀ cls t, instr ≠ .jump cls t) :
    parse314pairs (es.map (fun e => (69, e)) ++ [p]) = .ok [instr] := by
  have hfold : ∀ cl, pfold cl (es.map (fun e => (69, e)) ++ [p])
      ⟨[], [], 0, 0⟩ =
      .ok { out := [instr], mapping := [es.length], argExtension := 0,
            instructionCount := es.length + 1 } := by
    intro cl
    have hA := pfold_extends cl es ⟨[], [], 0, 0⟩ hb ⟨0, rfl⟩
      (by norm_num) (by intro i hi; exact hpre i hi)
    have h1 : List.foldlM (pstep cl) (⟨[], [], 0, 0⟩ : PState)
        (es.map (fun e => (69, e))) =
        .ok ⟨[], [], es.foldl (fun x e => (x + e) * 256) 0, es.length⟩ := by
      have := hA.1
      unfold pfold at this
      convert this using 2
      simp
    unfold pfold
    rw [List.foldlM_append, h1]
    simp only [Bind.bind, Except.bind, List.foldlM_cons, hstep,
      List.foldlM_nil]
    rfl
  unfold parse314pairs
  rw [hfold]
  cases instr
  case jump cls t => exact absurd rfl (hnj cls t)
  all_goals rfl

/-- C3 counterexample: opcode 82 (LoadConst by index) zeroes the pending
extension before `extend_arg!`, so `69 1; 82 5` lifts to
`LoadConst(ByIndex 5)` — not `ByIndex 261`, the fold
`((0<<8)+1)<<8 + 5` the claim requires for every argumented opcode. -/
theorem c3_counterexample_const_load_discards_extension :
    parse314pairs [(69, 1), (82, 5)] = .ok [.loadConst (.byIndex 5)] ∧
    (([1] ++ [5] : List Nat).foldl (fun x y => x * 256 + y) 0 = 261) := by
  exact ⟨rfl, rfl⟩

/-- C3 (amended): for a stream of extend-args pairs `(69, e)` followed by
one argumented opcode, provided every accumulated extension passes the
overflow check: when the final opcode is one of the single-instruction
arms that apply `extend_arg!` directly (`extArgOps`: Copy, Swap, Call,
the Local/Name loads and the Local/Global/Name stores), the emitted
instruction's effective argument is the left fold
`((e1<<8)+e2)<<8 + ... + b` over the extension bytes and the final
argument byte; opcode 82 (LoadConst by index) instead zeroes the pending
extension first, so its effective argument is its own raw byte.  And if,
on encountering some 69, the extension already accumulated (before that
69's own add-and-shift) exceeds `2^24 - 1`, the lifter fails with
`ArgExtendWouldOverflow` carrying exactly that pre-shift accumulation,
whatever the final opcode. -/
theorem c3_amended_extend_args_fold (es : List Nat) (b op : Nat)
    (hb : ∀ e ∈ es, e < 256) (hbb : b < 256) :
    ((∀ i < es.length,
        (es.take i).foldl (fun x e => (x + e) * 256) 0 ≤ 16777215) →
      (op ∈ extArgOps →
        parse314pairs (es.map (fun e => (69, e)) ++ [(op, b)]) =
          .ok [extArgInstr op
            ((es ++ [b]).foldl (fun x y => x * 256 + y) 0)]) ∧
      parse314pairs (es.map (fun e => (69, e)) ++ [(82, b)]) =
        .ok [.loadConst (.byIndex b)]) ∧
    (∀ i, (hi : i < es.length) →
      16777215 < (es.take i).foldl (fun x e => (x + e) * 256) 0 →
      (∀ j < i, (es.take j).foldl (fun x e => (x + e) * 256) 0 ≤ 16777215) →
      parse314pairs (es.map (fun e => (69, e)) ++ [(op, b)]) =
        .err (.argExtendWouldOverflow
          ((es.take i).foldl (fun x e => (x + e) * 256) 0))) := by
  constructor
  · intro hpre
    have hA := pfold_extends 0 es ⟨[], [], 0, 0⟩ hb ⟨0, rfl⟩
      (by norm_num) (by intro i hi; exact hpre i hi)
    have hE : es.foldl (fun x e => (x + e) * 256) 0 ≤ 4294967040 :=
      hA.2.2
    have heff : (b + es.foldl (fun x e => (x + e) * 256) 0) % u32size =
        b + es.foldl (fun x e => (x + e) * 256) 0 :=
      Nat.mod_eq_of_lt (by unfold u32size; omega)
    have hbr : (es ++ [b]).foldl (fun x y => x * 256 + y) 0 =
        b + es.foldl (fun x e => (x + e) * 256) 0 := by
      have h := foldl_shift_bridge es 0 b
      simp only [Nat.zero_mul] at h
      omega
    constructor
    · intro hop
      rw [hbr]
      simp only [extArgOps, List.mem_cons, List.not_mem_nil, or_false]
        at hop
      rcases hop with rfl | rfl | rfl | rfl | rfl | rfl | rfl | rfl | rfl |
        rfl | rfl | rfl
      all_goals
        refine parse314pairs_extends_single es _ _ hb hpre
          (fun cl => ?_)
          (by intro cls t h; simp [extArgInstr] at h)
      all_goals
        simp [pstep, pstepCore, extendArg, pushInstr, extArgInstr, heff,
          Except.map]
    · have hb2 : b % u32size = b :=
        Nat.mod_eq_of_lt (by unfold u32size; omega)
      refine parse314pairs_extends_single es _ _ hb hpre
        (fun cl => ?_)
        (by intro cls t h; exact Instruction.noConfusion h)
      simp [pstep, pstepCore, extendArg, pushInstr, hb2, Except.map]
  · intro i hi hover hmin
    have him : i < (es.map (fun e => (69, e))).length := by simpa using hi
    have hsplit : es.map (fun e => (69, e)) ++ [(op, b)] =
        (es.map (fun e => (69, e))).take i ++
          ((69, es.get ⟨i, hi⟩) ::
            ((es.map (fun e => (69, e))).drop (i + 1) ++ [(op, b)])) := by
      conv_lhs => rw [← List.take_append_drop i (es.map (fun e => (69, e)))]
      rw [List.drop_eq_getElem_cons him]
      simp
    have hfolderr : ∀ cl, pfold cl (es.map (fun e => (69, e)) ++ [(op, b)])
        ⟨[], [], 0, 0⟩ =
        .error (.argExtendWouldOverflow
          ((es.take i).foldl (fun x e => (x + e) * 256) 0)) := by
      intro cl
      have hA := pfold_extends cl (es.take i) ⟨[], [], 0, 0⟩
        (fun x hx => hb x (List.mem_of_mem_take hx))
        ⟨0, rfl⟩ (by norm_num)
        (by intro j hj
            have hj2 : j < i ∧ j < es.length := by simpa using hj
            have := hmin j hj2.1
            rw [List.take_take]
            simpa [Nat.min_eq_left (Nat.le_of_lt hj2.1)] using this)
      have h1 : List.foldlM (pstep cl) (⟨[], [], 0, 0⟩ : PState)
          ((es.take i).map (fun e => (69, e))) =
          .ok ⟨[], [], (es.take i).foldl (fun x e => (x + e) * 256) 0,
               (es.take i).length⟩ := by
        have := hA.1
        unfold pfold at this
        convert this using 2
        simp
      have hsteperr : pstep cl
          (⟨[], [], (es.take i).foldl (fun x e => (x + e) * 256) 0,
            (es.take i).length⟩ : PState) (69, es.get ⟨i, hi⟩) =
          .error (.argExtendWouldOverflow
            ((es.take i).foldl (fun x e => (x + e) * 256) 0)) := by
        simp [pstep, pstepCore, hover, Except.map]
      rw [hsplit]
      unfold pfold
      rw [List.foldlM_append, ← List.map_take, h1]
      simp only [Bind.bind, Except.bind, List.foldlM_cons, hsteperr]
    unfold parse314pairs
    rw [hfolderr]


/-- C3 witness: `69 1; 69 2; 59 3` lifts to `Copy((1·256+2)·256+3)`;
`69 1; 82 5` lifts to `LoadConst(ByIndex 5)`, the extension discarded;
and four `69 255` in a row overflow at the fourth with the accumulated
value `0xFFFFFF00`. -/
theorem c3_witness :
    parse314pairs [(69, 1), (69, 2), (59, 3)] = .ok [.copy 66051] ∧
    parse314pairs [(69, 1), (82, 5)] = .ok [.loadConst (.byIndex 5)] ∧
    parse314pairs [(69, 255), (69, 255), (69, 255), (69, 255), (59, 0)] =
      .err (.argExtendWouldOverflow 4294967040) := by
  have h1 := ((c3_amended_extend_args_fold [1, 2] 3 59 (by decide)
    (by decide)).1 (by decide)).1 (by decide)
  have h2 := ((c3_amended_extend_args_fold [1] 5 59 (by decide)
    (by decide)).1 (by decide)).2
  have h3 := (c3_amended_extend_args_fold [255, 255, 255, 255] 0 59
    (by decide) (by decide)).2 3 (by decide) (by decide) (by decide)
  refine ⟨?_, ?_, ?_⟩
  · simpa [extArgInstr] using h1
  · simpa using h2
  · simpa using h3


/-- Decompose a successful `Except.map`. -/
theorem exceptMap_ok {ε α β : Type} (f : α → β) (a : Except ε α) (v : β)
    (h : a.map f = .ok v) : ∃ w, a = .ok w ∧ v = f w := by
  cases a with
  | error e => simp [Except.map] at h
  | ok w => exact ⟨w, rfl, by simpa [Except.map] using h.symm⟩

/-- After any successful lifter step the pending extension is either 0 or
a byte-shifted `u32` value (hence a multiple of 256 below `2^32`): every
arm either resets it (directly or through `extend_arg!`) or is the
add-and-shift of opcode 69. -/
theorem pstepCore_extWF (cl : Nat) (st : PState) (p : Nat × Nat) (st' : PState)
    (h : pstepCore cl st p = .ok st') :
    st'.argExtension = 0 ∨ ∃ x, st'.argExtension = (x * 256) % u32size := by
  unfold pstepCore at h
  simp only [pstepCore.binCmp, extendArg] at h
  split at h <;>
    (repeat' split at h) <;>
    first
      | exact Except.noConfusion h
      | (injection h with h
         subst h
         first
           | (left; rfl)
           | (right; exact ⟨_, rfl⟩))

/-- The extension shape is preserved by the full step (the trailing
`instruction_count` bump does not touch it). -/
theorem pstep_extWF (cl : Nat) (st : PState) (p : Nat × Nat) (st' : PState)
    (h : pstep cl st p = .ok st') :
    st'.argExtension = 0 ∨ ∃ x, st'.argExtension = (x * 256) % u32size := by
  unfold pstep at h
  obtain ⟨w, hw, hv⟩ := exceptMap_ok _ _ _ h
  have := pstepCore_extWF cl st p w hw
  subst hv
  simpa using this

/-- The extension shape is an invariant of the lifter fold. -/
theorem pfold_extWF (cl : Nat) (l : List (Nat × Nat)) (st st' : PState)
    (h : pfold cl l st = .ok st')
    (h0 : st.argExtension = 0 ∨ ∃ x, st.argExtension = (x * 256) % u32size) :
    st'.argExtension = 0 ∨ ∃ x, st'.argExtension = (x * 256) % u32size := by
  induction l generalizing st with
  | nil =>
    unfold pfold at h
    simp only [List.foldlM_nil] at h
    have : st = st' := by
      simpa [pure, Except.pure] using h
    subst this
    exact h0
  | cons p tl ih =>
    unfold pfold at h
    rw [List.foldlM_cons] at h
    obtain ⟨w, hw, hrest⟩ := exceptBind_ok _ _ _ h
    exact ih w hrest (pstep_extWF cl st p w hw)

/-- C10: in any pair stream accepted by the lifter, an occurrence of
opcode 94 (load small int) emits `LoadConst(SmallInt(n))` carrying the raw
argument byte `n`, and this equals the occurrence's full effective
argument: the pending extension at that point is always a multiple of 256,
so acceptance (effective argument ≤ 255) forces the extension to be 0 and
the effective argument `(n + ext) % 2^32` to coincide with `n`. -/
theorem c10_small_int_effective_arg (pre post : List (Nat × Nat)) (n : Nat)
    (hn : n < 256) (l : List Instruction)
    (hok : parse314pairs (pre ++ (94, n) :: post) = .ok l) :
    ∃ st, pfold (pre ++ (94, n) :: post).length pre ⟨[], [], 0, 0⟩ = .ok st ∧
      (n + st.argExtension) % u32size = n ∧
      pstep (pre ++ (94, n) :: post).length st (94, n) =
        .ok { out := st.out ++ [.loadConst (.smallInt n)],
              mapping := st.mapping ++ [st.instructionCount],
              argExtension := 0,
              instructionCount := st.instructionCount + 1 } := by
  unfold parse314pairs at hok
  rcases hfull : pfold (pre ++ (94, n) :: post).length (pre ++ (94, n) :: post)
      ⟨[], [], 0, 0⟩ with e | stF
  · rw [hfull] at hok
    simp at hok
  rw [hfull] at hok
  have hsplit := hfull
  unfold pfold at hsplit
  rw [List.foldlM_append] at hsplit
  obtain ⟨st1, hst1, hrest⟩ := exceptBind_ok _ _ _ hsplit
  rw [List.foldlM_cons] at hrest
  obtain ⟨st2, hst2, _⟩ := exceptBind_ok _ _ _ hrest
  have hwf : st1.argExtension = 0 ∨
      ∃ x, st1.argExtension = (x * 256) % u32size :=
    pfold_extWF _ pre ⟨[], [], 0, 0⟩ st1 hst1 (Or.inl rfl)
  -- success of the (94, n) step forces the effective argument ≤ 255
  have hle : (n + st1.argExtension) % u32size ≤ 255 := by
    by_contra hgt
    push_neg at hgt
    have : pstep (pre ++ (94, n) :: post).length st1 (94, n) =
        .error (.smallIntTooLarge ((n + st1.argExtension) % u32size)) := by
      simp [pstep, pstepCore, extendArg, hgt, Except.map]
    rw [this] at hst2
    exact Except.noConfusion hst2
  have hext0 : st1.argExtension = 0 := by
    rcases hwf with h0 | ⟨x, hx⟩
    · exact h0
    · have hdvd : (256 : Nat) ∣ st1.argExtension := by
        rw [hx]
        have h32 : (256 : Nat) ∣ u32size := by unfold u32size; norm_num
        exact (Nat.dvd_mod_iff h32).2 ⟨x, by ring⟩
      have hlt : st1.argExtension < u32size := by
        rw [hx]
        exact Nat.mod_lt _ (by unfold u32size; norm_num)
      rcases hdvd with ⟨c, hc⟩
      by_contra hne
      have hge : 256 ≤ st1.argExtension := by omega
      have hlt2 : n + st1.argExtension < u32size := by
        unfold u32size at hlt ⊢
        omega
      rw [Nat.mod_eq_of_lt hlt2] at hle
      omega
  have heff : (n + st1.argExtension) % u32size = n := by
    rw [hext0]
    exact Nat.mod_eq_of_lt (by unfold u32size; omega)
  refine ⟨st1, hst1, heff, ?_⟩
  have hnn : ¬ (255 < (n + st1.argExtension) % u32size) := by omega
  have hnn2 : ¬ (255 < n) := by omega
  simp [pstep, pstepCore, extendArg, pushInstr, Except.map, hnn, heff, hnn2]

/-- C10 witness: the theorem applied to the singleton accepted stream
`[(94, 7)]`. -/
theorem c10_witness :
    ∃ st, pfold ([] ++ (94, 7) :: []).length [] ⟨[], [], 0, 0⟩ = .ok st ∧
      (7 + st.argExtension) % u32size = 7 ∧
      pstep ([] ++ (94, 7) :: []).length st (94, 7) =
        .ok { out := st.out ++ [.loadConst (.smallInt 7)],
              mapping := st.mapping ++ [st.instructionCount],
              argExtension := 0,
              instructionCount := st.instructionCount + 1 } :=
  c10_small_int_effective_arg [] [] 7 (by decide) [.loadConst (.smallInt 7)] rfl

/-- Sorted insertion only contains the inserted element and the old ones. -/
theorem mem_insertSorted {x a : Nat} : ∀ {l : List Nat},
    x ∈ insertSorted a l → x = a ∨ x ∈ l := by
  intro l
  induction l with
  | nil => intro h; simpa [insertSorted] using h
  | cons b t ih =>
    intro h
    unfold insertSorted at h
    by_cases hab : a ≤ b
    · simp [hab] at h
      rcases h with h | h | h
      · exact Or.inl h
      · exact Or.inr (by simp [h])
      · exact Or.inr (by simp [h])
    · simp [hab] at h
      rcases h with h | h
      · exact Or.inr (by simp [h])
      · rcases ih h with h | h
        · exact Or.inl h
        · exact Or.inr (by simp [h])

/-- Insertion sort preserves membership (one direction). -/
theorem mem_sortNat {x : Nat} : ∀ {l : List Nat}, x ∈ sortNat l → x ∈ l := by
  intro l
  induction l with
  | nil => intro h; simp [sortNat] at h
  | cons b t ih =>
    intro h
    unfold sortNat at h
    simp only [List.foldr_cons] at h
    rcases mem_insertSorted h with h | h
    · simp [h]
    · exact List.mem_cons_of_mem _ (ih h)

/-- Removing consecutive duplicates preserves membership. -/
theorem mem_dedupSorted {x : Nat} : ∀ {l : List Nat},
    x ∈ dedupSorted l → x ∈ l := by
  intro l
  induction l with
  | nil => intro h; simp [dedupSorted] at h
  | cons a t ih =>
    intro h
    match t, h with
    | [], h => simpa [dedupSorted] using h
    | b :: t2, h =>
      unfold dedupSorted at h
      by_cases hab : a = b
      · simp only [if_pos hab] at h
        exact List.mem_cons_of_mem _ (ih h)
      · simp only [if_neg hab] at h
        rcases List.mem_cons.1 h with h | h
        · simp [h]
        · exact List.mem_cons_of_mem _ (ih h)

/-- Every index stored by a sequence constructor comes from the collected
element list (set deduplication only reorders and drops). -/
theorem containerIndices_applySeqCtor {i : Nat} (k : SeqKind)
    (elems : List Nat) (h : i ∈ containerIndices (applySeqCtor k elems)) :
    i ∈ elems := by
  cases k <;> simp only [applySeqCtor, containerIndices] at h
  · exact h
  · exact h
  · exact mem_sortNat (mem_dedupSorted h)
  · exact mem_sortNat (mem_dedupSorted h)

/-- Appending an index-free object (and optionally registering its slot in
the ref table) preserves the construction invariant. -/
theorem regOk_push_leaf {objs : List PyObject} {refs : List Nat}
    (flag : Bool) (obj : PyObject) (hobj : containerIndices obj = [])
    (h : regOk objs refs) :
    regOk (objs ++ [obj]) (if flag then refs ++ [objs.length] else refs) := by
  obtain ⟨h1, h2⟩ := h
  constructor
  · intro r hr
    have hlen : objs.length < (objs ++ [obj]).length := by simp
    by_cases hf : flag
    · simp only [if_pos hf] at hr
      rcases List.mem_append.1 hr with hr | hr
      · have := h1 r hr
        simp only [List.length_append]
        omega
      · simp only [List.mem_singleton] at hr
        subst hr
        exact hlen
    · simp only [if_neg hf] at hr
      have := h1 r hr
      simp only [List.length_append]
      omega
  · intro o ho i hi
    rcases List.mem_append.1 ho with ho | ho
    · have := h2 o ho i hi
      simp only [List.length_append]
      omega
    · simp only [List.mem_singleton] at ho
      subst ho
      rw [hobj] at hi
      simp at hi

/-- Overwriting a slot with an object whose indices are in range preserves
the construction invariant. -/
theorem regOk_set {objs : List PyObject} {refs : List Nat} {idx : Nat}
    (obj : PyObject) (h : regOk objs refs)
    (hobj : ∀ i ∈ containerIndices obj, i < objs.length) :
    regOk (objs.set idx obj) refs := by
  obtain ⟨h1, h2⟩ := h
  constructor
  · intro r hr
    have := h1 r hr
    simpa using this
  · intro o ho i hi
    rcases List.mem_or_eq_of_mem_set ho with ho | ho
    · have := h2 o ho i hi
      simpa using this
    · subst ho
      have := hobj i hi
      simpa using this

/-- A successful `get_byte` leaves the region and ref table unchanged. -/
theorem getByte_ok {st : UState} {b : Nat} {st2 : UState}
    (h : getByte st = .ok (b, st2)) :
    st2.objects = st.objects ∧ st2.refables = st.refables := by
  unfold getByte at h
  split at h
  · exact Except.noConfusion h
  · injection h with h
    injection h with h1 h2
    subst h2
    exact ⟨rfl, rfl⟩

/-- A successful `get_bytes` leaves the region and ref table unchanged. -/
theorem getBytesN_ok {n : Nat} {st : UState} {bs : List Nat} {st2 : UState}
    (h : getBytesN n st = .ok (bs, st2)) :
    st2.objects = st.objects ∧ st2.refables = st.refables := by
  unfold getBytesN at h
  split at h
  · exact Except.noConfusion h
  · injection h with h
    injection h with h1 h2
    subst h2
    exact ⟨rfl, rfl⟩

/-- A successful `get_short_str` leaves the region and ref table
unchanged. -/
theorem getShortStr_ok {st : UState} {bs : List Nat} {st2 : UState}
    (h : getShortStr st = .ok (bs, st2)) :
    st2.objects = st.objects ∧ st2.refables = st.refables := by
  unfold getShortStr at h
  split at h
  · exact Except.noConfusion h
  case _ len st1 heq =>
    split at h
    · exact Except.noConfusion h
    · injection h with h
      injection h with h1 h2
      subst h2
      obtain ⟨e1, e2⟩ := getByte_ok heq
      exact ⟨e1, e2⟩

/-- A successful `get_str` leaves the region and ref table unchanged. -/
theorem getStr_ok {st : UState} {bs : List Nat} {st2 : UState}
    (h : getStr st = .ok (bs, st2)) :
    st2.objects = st.objects ∧ st2.refables = st.refables := by
  unfold getStr at h
  split at h
  · exact Except.noConfusion h
  case _ bs4 st1 heq =>
    simp only [] at h
    split at h
    · exact Except.noConfusion h
    · injection h with h
      injection h with h1 h2
      subst h2
      obtain ⟨e1, e2⟩ := getBytesN_ok heq
      exact ⟨e1, e2⟩

set_option maxHeartbeats 1000000 in
/-- `parse_sequence` meets its guarantees, assuming `parse_list` does at
the previous fuel. -/
theorem seqStep (oc : StdOracles) (fuel : Nat) (hL : ListSpec oc fuel) :
    SeqSpec oc (fuel + 1) := by
  intro st flag k res st' h hok
  obtain ⟨src, objs, refs⟩ := st
  simp only [parseSequence] at h
  have hok1 : regOk (objs ++ [PyObject.null])
      (if flag then refs ++ [objs.length] else refs) :=
    regOk_push_leaf flag PyObject.null rfl hok
  split at h
  case _ e heq =>
    injection h with h
    injection h with h1 h2
    subst h1
    subst h2
    refine ⟨hok1, by simp, ?_⟩
    intro idx hidx
    exact Except.noConfusion hidx
  case _ bs st2 heq =>
    obtain ⟨hobj2, href2⟩ := getBytesN_ok heq
    have hok2 : regOk st2.objects st2.refables := by
      rw [hobj2, href2]
      exact hok1
    have hlen2 : st2.objects.length = objs.length + 1 := by
      rw [hobj2]
      simp
    split at h
    · -- negative length
      injection h with h
      injection h with h1 h2
      subst h1
      subst h2
      refine ⟨hok2, by show objs.length ≤ st2.objects.length; omega, ?_⟩
      intro idx hidx
      exact Except.noConfusion hidx
    · -- parse the children
      split at h
      · exact Option.noConfusion h
      case _ e st3 heq3 =>
        injection h with h
        injection h with h1 h2
        subst h1
        subst h2
        obtain ⟨hok3, hmono3, _⟩ := hL (leU bs) st2 (.error e) st3 heq3 hok2
        refine ⟨hok3, ?_, fun idx hidx => Except.noConfusion hidx⟩
        show objs.length ≤ st3.objects.length
        omega
      case _ elems st3 heq3 =>
        injection h with h
        injection h with h1 h2
        subst h1
        subst h2
        obtain ⟨hok3, hmono3, hbound⟩ := hL (leU bs) st2 (.ok elems) st3 heq3 hok2
        have hb := hbound elems rfl
        refine ⟨?_, ?_, ?_⟩
        · exact regOk_set (applySeqCtor k elems) hok3
            (fun i hi => hb i (containerIndices_applySeqCtor k elems hi))
        · show objs.length ≤ (st3.objects.set objs.length (applySeqCtor k elems)).length
          simp only [List.length_set]
          omega
        · intro idx hidx
          injection hidx with hidx
          subst hidx
          refine ⟨?_, rfl⟩
          show objs.length < (st3.objects.set objs.length (applySeqCtor k elems)).length
          simp only [List.length_set]
          omega

/-- The leaf postlude satisfies the parse-object guarantees: the invariant
is preserved, the region grows by one, and the returned index is the
fresh slot. -/
theorem leafResult_spec (st2 : UState) (flag : Bool) (obj : PyObject)
    (hobj : containerIndices obj = []) (hok : regOk st2.objects st2.refables) :
    regOk (leafResult st2 flag obj).2.objects (leafResult st2 flag obj).2.refables ∧
    st2.objects.length ≤ (leafResult st2 flag obj).2.objects.length ∧
    ∀ idx, (leafResult st2 flag obj).1 = .ok idx →
      idx < (leafResult st2 flag obj).2.objects.length ∧
      (idx = st2.objects.length ∨ idx ∈ st2.refables) := by
  refine ⟨regOk_push_leaf flag obj hobj hok, by simp [leafResult], ?_⟩
  intro idx hidx
  injection hidx with hidx
  subst hidx
  refine ⟨?_, Or.inl rfl⟩
  show st2.objects.length < (st2.objects ++ [obj]).length
  simp

set_option maxHeartbeats 2000000 in
/-- `parse_object` meets its guarantees, assuming the container parsers do
at the previous fuel. -/
theorem objStep (oc : StdOracles) (fuel : Nat)
    (hS : SeqSpec oc fuel) (hLi : ListSpec oc fuel)
    (hD : DictSpec oc fuel) (hC : CodeSpec oc fuel) :
    ObjSpec oc (fuel + 1) := by
  intro st res st' h hok
  obtain ⟨src, objs, refs⟩ := st
  cases src with
  | nil =>
    simp only [parseObject, getByte] at h
    injection h with h
    injection h with h1 h2
    subst h1
    subst h2
    exact ⟨hok, Nat.le_refl _, fun idx hidx => Except.noConfusion hidx⟩
  | cons tag rest =>
    simp only [parseObject, getByte] at h
    split at h <;>
      try (injection h with h
           injection h with h1 h2
           subst h1
           subst h2
           exact ⟨hok, Nat.le_refl _, fun idx hidx => Except.noConfusion hidx⟩)
    -- 'N' None
    · injection h with h
      injection h with h1 h2
      subst h1
      subst h2
      exact leafResult_spec ⟨rest, objs, refs⟩ _ _ rfl hok
    -- 'T' True
    · injection h with h
      injection h with h1 h2
      subst h1
      subst h2
      exact leafResult_spec ⟨rest, objs, refs⟩ _ _ rfl hok
    -- 'F' False
    · injection h with h
      injection h with h1 h2
      subst h1
      subst h2
      exact leafResult_spec ⟨rest, objs, refs⟩ _ _ rfl hok
    -- 'S' StopIter
    · injection h with h
      injection h with h1 h2
      subst h1
      subst h2
      exact leafResult_spec ⟨rest, objs, refs⟩ _ _ rfl hok
    -- '.' Ellipsis
    · injection h with h
      injection h with h1 h2
      subst h1
      subst h2
      exact leafResult_spec ⟨rest, objs, refs⟩ _ _ rfl hok
    -- 'i' Int
    · split at h
      · injection h with h
        injection h with h1 h2
        subst h1
        subst h2
        exact ⟨hok, Nat.le_refl _, fun idx hidx => Except.noConfusion hidx⟩
      case _ bs st2 heq =>
        injection h with h
        injection h with h1 h2
        subst h1
        subst h2
        obtain ⟨e1, e2⟩ := getBytesN_ok heq
        have hs := leafResult_spec st2 (tag &&& 128 != 0)
          (.smallInt (leI32 bs)) rfl (by rw [e1, e2]; exact hok)
        rw [e1, e2] at hs
        exact hs
    -- 'I' Int64
    · split at h
      · injection h with h
        injection h with h1 h2
        subst h1
        subst h2
        exact ⟨hok, Nat.le_refl _, fun idx hidx => Except.noConfusion hidx⟩
      case _ bs st2 heq =>
        injection h with h
        injection h with h1 h2
        subst h1
        subst h2
        obtain ⟨e1, e2⟩ := getBytesN_ok heq
        have hs := leafResult_spec st2 (tag &&& 128 != 0)
          (.smallInt (leI64 bs)) rfl (by rw [e1, e2]; exact hok)
        rw [e1, e2] at hs
        exact hs
    -- 'f' Float from string
    · split at h
      · injection h with h
        injection h with h1 h2
        subst h1
        subst h2
        exact ⟨hok, Nat.le_refl _, fun idx hidx => Except.noConfusion hidx⟩
      case _ s st2 heq =>
        obtain ⟨e1, e2⟩ := getShortStr_ok heq
        split at h
        · split at h
          · injection h with h
            injection h with h1 h2
            subst h1
            subst h2
            have hs := leafResult_spec st2 (tag &&& 128 != 0)
              (.float s) rfl (by rw [e1, e2]; exact hok)
            rw [e1, e2] at hs
            exact hs
          · injection h with h
            injection h with h1 h2
            subst h1
            subst h2
            refine ⟨by rw [e1, e2]; exact hok, by rw [e1],
              fun idx hidx => Except.noConfusion hidx⟩
        · injection h with h
          injection h with h1 h2
          subst h1
          subst h2
          refine ⟨by rw [e1, e2]; exact hok, by rw [e1],
            fun idx hidx => Except.noConfusion hidx⟩
    -- 'g' BinaryFloat
    · split at h
      · injection h with h
        injection h with h1 h2
        subst h1
        subst h2
        exact ⟨hok, Nat.le_refl _, fun idx hidx => Except.noConfusion hidx⟩
      case _ bs st2 heq =>
        injection h with h
        injection h with h1 h2
        subst h1
        subst h2
        obtain ⟨e1, e2⟩ := getBytesN_ok heq
        have hs := leafResult_spec st2 (tag &&& 128 != 0)
          (.float bs) rfl (by rw [e1, e2]; exact hok)
        rw [e1, e2] at hs
        exact hs
    -- 'x' Complex from strings
    · split at h
      · injection h with h
        injection h with h1 h2
        subst h1
        subst h2
        exact ⟨hok, Nat.le_refl _, fun idx hidx => Except.noConfusion hidx⟩
      case _ s1 st2 heq =>
        obtain ⟨e1, e2⟩ := getShortStr_ok heq
        split at h
        · split at h
          · injection h with h
            injection h with h1 h2
            subst h1
            subst h2
            refine ⟨by rw [e1, e2]; exact hok, by rw [e1],
              fun idx hidx => Except.noConfusion hidx⟩
          case _ s2 st3 heq3 =>
            obtain ⟨e3, e4⟩ := getShortStr_ok heq3
            split at h
            · split at h
              · injection h with h
                injection h with h1 h2
                subst h1
                subst h2
                have hs := leafResult_spec st3 (tag &&& 128 != 0)
                  (.complex s1 s2) rfl (by rw [e3, e4, e1, e2]; exact hok)
                rw [e3, e4, e1, e2] at hs
                exact hs
              · injection h with h
                injection h with h1 h2
                subst h1
                subst h2
                refine ⟨by rw [e3, e4, e1, e2]; exact hok, by rw [e3, e1],
                  fun idx hidx => Except.noConfusion hidx⟩
            · injection h with h
              injection h with h1 h2
              subst h1
              subst h2
              refine ⟨by rw [e3, e4, e1, e2]; exact hok, by rw [e3, e1],
                fun idx hidx => Except.noConfusion hidx⟩
        · injection h with h
          injection h with h1 h2
          subst h1
          subst h2
          refine ⟨by rw [e1, e2]; exact hok, by rw [e1],
            fun idx hidx => Except.noConfusion hidx⟩
    -- 'y' BinaryComplex
    · split at h
      · injection h with h
        injection h with h1 h2
        subst h1
        subst h2
        exact ⟨hok, Nat.le_refl _, fun idx hidx => Except.noConfusion hidx⟩
      case _ b1 st2 heq =>
        obtain ⟨e1, e2⟩ := getBytesN_ok heq
        split at h
        · injection h with h
          injection h with h1 h2
          subst h1
          subst h2
          refine ⟨by rw [e1, e2]; exact hok, by rw [e1],
            fun idx hidx => Except.noConfusion hidx⟩
        case _ b2 st3 heq3 =>
          injection h with h
          injection h with h1 h2
          subst h1
          subst h2
          obtain ⟨e3, e4⟩ := getBytesN_ok heq3
          have hs := leafResult_spec st3 (tag &&& 128 != 0)
            (.complex b1 b2) rfl (by rw [e3, e4, e1, e2]; exact hok)
          rw [e3, e4, e1, e2] at hs
          exact hs
    -- 'l' Long
    · split at h
      · injection h with h
        injection h with h1 h2
        subst h1
        subst h2
        exact ⟨hok, Nat.le_refl _, fun idx hidx => Except.noConfusion hidx⟩
      case _ s st2 heq =>
        injection h with h
        injection h with h1 h2
        subst h1
        subst h2
        obtain ⟨e1, e2⟩ := getStr_ok heq
        have hs := leafResult_spec st2 (tag &&& 128 != 0)
          (.largeInt s) rfl (by rw [e1, e2]; exact hok)
        rw [e1, e2] at hs
        exact hs
    -- 's' Bytes
    · split at h
      · injection h with h
        injection h with h1 h2
        subst h1
        subst h2
        exact ⟨hok, Nat.le_refl _, fun idx hidx => Except.noConfusion hidx⟩
      case _ s st2 heq =>
        injection h with h
        injection h with h1 h2
        subst h1
        subst h2
        obtain ⟨e1, e2⟩ := getStr_ok heq
        have hs := leafResult_spec st2 (tag &&& 128 != 0)
          (.bytes s) rfl (by rw [e1, e2]; exact hok)
        rw [e1, e2] at hs
        exact hs
    -- 't' Interned
    · split at h
      · injection h with h
        injection h with h1 h2
        subst h1
        subst h2
        exact ⟨hok, Nat.le_refl _, fun idx hidx => Except.noConfusion hidx⟩
      case _ s st2 heq =>
        obtain ⟨e1, e2⟩ := getStr_ok heq
        split at h
        · injection h with h
          injection h with h1 h2
          subst h1
          subst h2
          have hs := leafResult_spec st2 (tag &&& 128 != 0)
            (.string s) rfl (by rw [e1, e2]; exact hok)
          rw [e1, e2] at hs
          exact hs
        · injection h with h
          injection h with h1 h2
          subst h1
          subst h2
          refine ⟨by rw [e1, e2]; exact hok, by rw [e1],
            fun idx hidx => Except.noConfusion hidx⟩
    -- 'u' Unicode
    · split at h
      · injection h with h
        injection h with h1 h2
        subst h1
        subst h2
        exact ⟨hok, Nat.le_refl _, fun idx hidx => Except.noConfusion hidx⟩
      case _ s st2 heq =>
        obtain ⟨e1, e2⟩ := getStr_ok heq
        split at h
        · injection h with h
          injection h with h1 h2
          subst h1
          subst h2
          have hs := leafResult_spec st2 (tag &&& 128 != 0)
            (.string s) rfl (by rw [e1, e2]; exact hok)
          rw [e1, e2] at hs
          exact hs
        · injection h with h
          injection h with h1 h2
          subst h1
          subst h2
          refine ⟨by rw [e1, e2]; exact hok, by rw [e1],
            fun idx hidx => Except.noConfusion hidx⟩
    -- 'r' Ref
    · split at h
      · injection h with h
        injection h with h1 h2
        subst h1
        subst h2
        exact ⟨hok, Nat.le_refl _, fun idx hidx => Except.noConfusion hidx⟩
      case _ bs st2 heq =>
        obtain ⟨e1, e2⟩ := getBytesN_ok heq
        split at h
        case _ ridx hget =>
          injection h with h
          injection h with h1 h2
          subst h1
          subst h2
          refine ⟨by rw [e1, e2]; exact hok, by rw [e1], ?_⟩
          intro idx hidx
          injection hidx with hidx
          subst hidx
          have hmem : ridx ∈ st2.refables := List.get?_mem hget
          rw [e2] at hmem
          refine ⟨?_, Or.inr hmem⟩
          rw [e1]
          exact hok.1 ridx hmem
        case _ hget =>
          injection h with h
          injection h with h1 h2
          subst h1
          subst h2
          refine ⟨by rw [e1, e2]; exact hok, by rw [e1],
            fun idx hidx => Except.noConfusion hidx⟩
    -- '(' Tuple
    · obtain ⟨h1, h2, h3⟩ := hS ⟨rest, objs, refs⟩ _ _ res st' h hok
      exact ⟨h1, h2, fun idx hidx => ⟨(h3 idx hidx).1, Or.inl (h3 idx hidx).2⟩⟩
    -- '[' List
    · obtain ⟨h1, h2, h3⟩ := hS ⟨rest, objs, refs⟩ _ _ res st' h hok
      exact ⟨h1, h2, fun idx hidx => ⟨(h3 idx hidx).1, Or.inl (h3 idx hidx).2⟩⟩
    -- '<' Set
    · obtain ⟨h1, h2, h3⟩ := hS ⟨rest, objs, refs⟩ _ _ res st' h hok
      exact ⟨h1, h2, fun idx hidx => ⟨(h3 idx hidx).1, Or.inl (h3 idx hidx).2⟩⟩
    -- '>' FrozenSet
    · obtain ⟨h1, h2, h3⟩ := hS ⟨rest, objs, refs⟩ _ _ res st' h hok
      exact ⟨h1, h2, fun idx hidx => ⟨(h3 idx hidx).1, Or.inl (h3 idx hidx).2⟩⟩
    -- ')' SmallTuple
    · split at h
      · injection h with h
        injection h with h1 h2
        subst h1
        subst h2
        exact ⟨hok, Nat.le_refl _, fun idx hidx => Except.noConfusion hidx⟩
      case _ n st2 heq =>
        obtain ⟨e1x, e2x⟩ := getByte_ok
          (show getByte ⟨rest, objs, refs⟩ = .ok (n, st2) from heq)
        have e1 : st2.objects = objs := e1x
        have e2 : st2.refables = refs := e2x
        have hok2 : regOk (st2.objects ++ [PyObject.null])
            (if (tag &&& 128 != 0) = true then st2.refables ++ [st2.objects.length]
             else st2.refables) := by
          rw [e1, e2]
          exact regOk_push_leaf _ PyObject.null rfl hok
        split at h
        · exact Option.noConfusion h
        case _ e st3 heq3 =>
          injection h with h
          injection h with h1 h2
          subst h1
          subst h2
          obtain ⟨g1, g2, _⟩ := hLi n _ (.error e) st3 heq3 hok2
          refine ⟨g1, ?_, fun idx hidx => Except.noConfusion hidx⟩
          have g2a : (st2.objects ++ [PyObject.null]).length ≤
              st3.objects.length := g2
          have hlen : (st2.objects ++ [PyObject.null]).length =
              objs.length + 1 := by
            rw [e1]
            simp
          show objs.length ≤ st3.objects.length
          omega
        case _ elems st3 heq3 =>
          injection h with h
          injection h with h1 h2
          subst h1
          subst h2
          obtain ⟨g1, g2, g3⟩ := hLi n _ (.ok elems) st3 heq3 hok2
          have hb := g3 elems rfl
          have hlen : (st2.objects ++ [PyObject.null]).length =
              objs.length + 1 := by
            rw [e1]
            simp
          have g2a : (st2.objects ++ [PyObject.null]).length ≤
              st3.objects.length := g2
          refine ⟨?_, ?_, ?_⟩
          · exact regOk_set (.tuple elems) g1 (fun i hi => hb i hi)
          · show objs.length ≤
              (st3.objects.set st2.objects.length (.tuple elems)).length
            simp only [List.length_set]
            omega
          · intro idx hidx
            injection hidx with hidx
            subst hidx
            refine ⟨?_, Or.inl (by rw [e1])⟩
            show st2.objects.length <
              (st3.objects.set st2.objects.length (.tuple elems)).length
            simp only [List.length_set]
            rw [e1]
            omega
    -- '{' Dict
    · obtain ⟨h1, h2, h3⟩ := hD ⟨rest, objs, refs⟩ _ res st' h hok
      exact ⟨h1, h2, fun idx hidx => ⟨(h3 idx hidx).1, Or.inl (h3 idx hidx).2⟩⟩
    -- 'c' Code
    · obtain ⟨h1, h2, h3⟩ := hC ⟨rest, objs, refs⟩ _ res st' h hok
      exact ⟨h1, h2, fun idx hidx => ⟨(h3 idx hidx).1, Or.inl (h3 idx hidx).2⟩⟩
    -- 'a' Ascii
    · split at h
      · injection h with h
        injection h with h1 h2
        subst h1
        subst h2
        exact ⟨hok, Nat.le_refl _, fun idx hidx => Except.noConfusion hidx⟩
      case _ s st2 heq =>
        obtain ⟨e1, e2⟩ := getStr_ok heq
        split at h
        · injection h with h
          injection h with h1 h2
          subst h1
          subst h2
          have hs := leafResult_spec st2 (tag &&& 128 != 0)
            (.string s) rfl (by rw [e1, e2]; exact hok)
          rw [e1, e2] at hs
          exact hs
        · injection h with h
          injection h with h1 h2
          subst h1
          subst h2
          refine ⟨by rw [e1, e2]; exact hok, by rw [e1],
            fun idx hidx => Except.noConfusion hidx⟩
    -- 'A' AsciiInterned
    · split at h
      · injection h with h
        injection h with h1 h2
        subst h1
        subst h2
        exact ⟨hok, Nat.le_refl _, fun idx hidx => Except.noConfusion hidx⟩
      case _ s st2 heq =>
        obtain ⟨e1, e2⟩ := getStr_ok heq
        split at h
        · injection h with h
          injection h with h1 h2
          subst h1
          subst h2
          have hs := leafResult_spec st2 (tag &&& 128 != 0)
            (.string s) rfl (by rw [e1, e2]; exact hok)
          rw [e1, e2] at hs
          exact hs
        · injection h with h
          injection h with h1 h2
          subst h1
          subst h2
          refine ⟨by rw [e1, e2]; exact hok, by rw [e1],
            fun idx hidx => Except.noConfusion hidx⟩
    -- 'z' ShortAscii
    · split at h
      · injection h with h
        injection h with h1 h2
        subst h1
        subst h2
        exact ⟨hok, Nat.le_refl _, fun idx hidx => Except.noConfusion hidx⟩
      case _ s st2 heq =>
        obtain ⟨e1, e2⟩ := getShortStr_ok heq
        split at h
        · injection h with h
          injection h with h1 h2
          subst h1
          subst h2
          have hs := leafResult_spec st2 (tag &&& 128 != 0)
            (.string s) rfl (by rw [e1, e2]; exact hok)
          rw [e1, e2] at hs
          exact hs
        · injection h with h
          injection h with h1 h2
          subst h1
          subst h2
          refine ⟨by rw [e1, e2]; exact hok, by rw [e1],
            fun idx hidx => Except.noConfusion hidx⟩
    -- 'Z' ShortAsciiInterned
    · split at h
      · injection h with h
        injection h with h1 h2
        subst h1
        subst h2
        exact ⟨hok, Nat.le_refl _, fun idx hidx => Except.noConfusion hidx⟩
      case _ s st2 heq =>
        obtain ⟨e1, e2⟩ := getShortStr_ok heq
        split at h
        · injection h with h
          injection h with h1 h2
          subst h1
          subst h2
          have hs := leafResult_spec st2 (tag &&& 128 != 0)
            (.string s) rfl (by rw [e1, e2]; exact hok)
          rw [e1, e2] at hs
          exact hs
        · injection h with h
          injection h with h1 h2
          subst h1
          subst h2
          refine ⟨by rw [e1, e2]; exact hok, by rw [e1],
            fun idx hidx => Except.noConfusion hidx⟩

/-- `parse_list` meets its guarantees, assuming `parse_object` and itself
do at the previous fuel. -/
theorem listStep (oc : StdOracles) (fuel : Nat)
    (hO : ObjSpec oc fuel) (hLi : ListSpec oc fuel) :
    ListSpec oc (fuel + 1) := by
  intro len st res st' h hok
  cases len with
  | zero =>
    simp only [parseList] at h
    injection h with h
    injection h with h1 h2
    subst h1
    subst h2
    refine ⟨hok, Nat.le_refl _, ?_⟩
    intro idxs hidxs
    injection hidxs with hidxs
    subst hidxs
    intro i hi
    simp at hi
  | succ m =>
    simp only [parseList] at h
    split at h
    · exact Option.noConfusion h
    case _ e st2 heq =>
      injection h with h
      injection h with h1 h2
      subst h1
      subst h2
      obtain ⟨g1, g2, _⟩ := hO st (.error e) st2 heq hok
      exact ⟨g1, g2, fun idxs hidxs => Except.noConfusion hidxs⟩
    case _ idx st2 heq =>
      obtain ⟨g1, g2, g3⟩ := hO st (.ok idx) st2 heq hok
      split at h
      · exact Option.noConfusion h
      case _ e st3 heq3 =>
        injection h with h
        injection h with h1 h2
        subst h1
        subst h2
        obtain ⟨k1, k2, _⟩ := hLi m st2 (.error e) st3 heq3 g1
        exact ⟨k1, Nat.le_trans g2 k2, fun idxs hidxs => Except.noConfusion hidxs⟩
      case _ idxs st3 heq3 =>
        injection h with h
        injection h with h1 h2
        subst h1
        subst h2
        obtain ⟨k1, k2, k3⟩ := hLi m st2 (.ok idxs) st3 heq3 g1
        refine ⟨k1, Nat.le_trans g2 k2, ?_⟩
        intro idxs2 hidxs
        injection hidxs with hidxs
        subst hidxs
        intro i hi
        rcases List.mem_cons.1 hi with rfl | hi2
        · exact Nat.lt_of_lt_of_le (g3 i rfl).1 k2
        · exact k3 idxs rfl i hi2

/-- The dict key/value loop meets its guarantees, assuming `parse_object`
and itself do at the previous fuel; the `FoundNull` escape keeps whatever
state the aborted key parse built. -/
theorem dictLoopStep (oc : StdOracles) (fuel : Nat)
    (hO : ObjSpec oc fuel) (hDL : DictLoopSpec oc fuel) :
    DictLoopSpec oc (fuel + 1) := by
  intro st res st' h hok
  simp only [parseDictLoop] at h
  split at h
  · exact Option.noConfusion h
  -- key parse returned FoundNull: loop ends
  case _ st1 heq =>
    injection h with h
    injection h with h1 h2
    subst h1
    subst h2
    obtain ⟨g1, g2, _⟩ := hO st (.error .foundNull) st1 heq hok
    refine ⟨g1, g2, ?_⟩
    intro prs hprs
    injection hprs with hprs
    subst hprs
    intro pr hpr
    simp at hpr
  -- key parse returned another error
  case _ e st1 hne heq =>
    injection h with h
    injection h with h1 h2
    subst h1
    subst h2
    obtain ⟨g1, g2, _⟩ := hO st (.error e) st1 heq hok
    exact ⟨g1, g2, fun prs hprs => Except.noConfusion hprs⟩
  -- key ok
  case _ key st1 heq =>
    obtain ⟨g1, g2, g3⟩ := hO st (.ok key) st1 heq hok
    split at h
    · exact Option.noConfusion h
    case _ e st2 heq2 =>
      injection h with h
      injection h with h1 h2
      subst h1
      subst h2
      obtain ⟨k1, k2, _⟩ := hO st1 (.error e) st2 heq2 g1
      exact ⟨k1, Nat.le_trans g2 k2, fun prs hprs => Except.noConfusion hprs⟩
    case _ value st2 heq2 =>
      obtain ⟨k1, k2, k3⟩ := hO st1 (.ok value) st2 heq2 g1
      split at h
      · exact Option.noConfusion h
      case _ e st3 heq3 =>
        injection h with h
        injection h with h1 h2
        subst h1
        subst h2
        obtain ⟨m1, m2, _⟩ := hDL st2 (.error e) st3 heq3 k1
        exact ⟨m1, Nat.le_trans g2 (Nat.le_trans k2 m2),
          fun prs hprs => Except.noConfusion hprs⟩
      case _ prs st3 heq3 =>
        injection h with h
        injection h with h1 h2
        subst h1
        subst h2
        obtain ⟨m1, m2, m3⟩ := hDL st2 (.ok prs) st3 heq3 k1
        refine ⟨m1, Nat.le_trans g2 (Nat.le_trans k2 m2), ?_⟩
        intro prs2 hprs
        injection hprs with hprs
        subst hprs
        intro pr hpr
        rcases List.mem_cons.1 hpr with rfl | hpr2
        · constructor
          · exact Nat.lt_of_lt_of_le (g3 key rfl).1 (Nat.le_trans k2 m2)
          · exact Nat.lt_of_lt_of_le (k3 value rfl).1 m2
        · exact m3 prs rfl pr hpr2


/-- The indices of a dict entry come from its key/value pairs. -/
theorem mem_containerIndices_dict {i : Nat} {prs : List (Nat × Nat)}
    (h : i ∈ containerIndices (.dict prs)) :
    ∃ pr ∈ prs, i = pr.1 ∨ i = pr.2 := by
  induction prs with
  | nil => simp [containerIndices] at h
  | cons p t ih =>
    simp only [containerIndices, List.foldr_cons] at h
    rcases List.mem_cons.1 h with rfl | h2
    · exact ⟨p, by simp, Or.inl rfl⟩
    · rcases List.mem_cons.1 h2 with rfl | h3
      · exact ⟨p, by simp, Or.inr rfl⟩
      · obtain ⟨pr, hpr, hor⟩ := ih (by simpa [containerIndices] using h3)
        exact ⟨pr, by simp [hpr], hor⟩

/-- `parse_dict` meets its guarantees, assuming the loop does at the
previous fuel. -/
theorem dictStep (oc : StdOracles) (fuel : Nat)
    (hDL : DictLoopSpec oc fuel) :
    DictSpec oc (fuel + 1) := by
  intro st flag res st' h hok
  obtain ⟨src, objs, refs⟩ := st
  simp only [parseDict] at h
  have hok1 : regOk (objs ++ [PyObject.null])
      (if flag then refs ++ [objs.length] else refs) :=
    regOk_push_leaf flag PyObject.null rfl hok
  split at h
  · exact Option.noConfusion h
  case _ e st2 heq =>
    injection h with h
    injection h with h1 h2
    subst h1
    subst h2
    obtain ⟨g1, g2, _⟩ := hDL _ (.error e) st2 heq hok1
    have g2a : (objs ++ [PyObject.null]).length ≤ st2.objects.length := g2
    refine ⟨g1, ?_, fun idx hidx => Except.noConfusion hidx⟩
    show objs.length ≤ st2.objects.length
    simp only [List.length_append, List.length_cons, List.length_nil] at g2a
    omega
  case _ prs st2 heq =>
    injection h with h
    injection h with h1 h2
    subst h1
    subst h2
    obtain ⟨g1, g2, g3⟩ := hDL _ (.ok prs) st2 heq hok1
    have g2a : (objs ++ [PyObject.null]).length ≤ st2.objects.length := g2
    simp only [List.length_append, List.length_cons, List.length_nil] at g2a
    have hb := g3 prs rfl
    refine ⟨?_, ?_, ?_⟩
    · refine regOk_set (.dict prs) g1 ?_
      intro i hi
      obtain ⟨pr, hpr, hi2⟩ := mem_containerIndices_dict hi
      have := hb pr hpr
      rcases hi2 with rfl | rfl
      · exact this.1
      · exact this.2
    · show objs.length ≤ (st2.objects.set objs.length (.dict prs)).length
      simp only [List.length_set]
      omega
    · intro idx hidx
      injection hidx with hidx
      subst hidx
      refine ⟨?_, rfl⟩
      show objs.length < (st2.objects.set objs.length (.dict prs)).length
      simp only [List.length_set]
      omega

set_option maxHeartbeats 2000000 in
/-- `parse_code` meets its guarantees, assuming `parse_object` does at the
previous fuel. -/
theorem codeStep (oc : StdOracles) (fuel : Nat) (hO : ObjSpec oc fuel) :
    CodeSpec oc (fuel + 1) := by
  intro st flag res st' h hok
  obtain ⟨src, objs, refs⟩ := st
  simp only [parseCode] at h
  have hok0 : regOk (objs ++ [PyObject.null])
      (if flag then refs ++ [objs.length] else refs) :=
    regOk_push_leaf flag PyObject.null rfl hok
  -- the five leading i32 fields
  split at h
  case _ e heq =>
    injection h with h
    injection h with h1 h2
    subst h1
    subst h2
    exact ⟨hok0, by simp, fun idx hidx => Except.noConfusion hidx⟩
  case _ b1 sA heq1 =>
  obtain ⟨eA1, eA2⟩ := getBytesN_ok heq1
  have hokA : regOk sA.objects sA.refables := by rw [eA1, eA2]; exact hok0
  have hlenA : sA.objects.length = objs.length + 1 := by rw [eA1]; simp
  split at h
  case _ e heq =>
    injection h with h
    injection h with h1 h2
    subst h1
    subst h2
    exact ⟨hokA, by show objs.length ≤ sA.objects.length; omega,
      fun idx hidx => Except.noConfusion hidx⟩
  case _ b2 sB heq2 =>
  obtain ⟨eB1, eB2⟩ := getBytesN_ok heq2
  have hokB : regOk sB.objects sB.refables := by rw [eB1, eB2]; exact hokA
  have hlenB : sB.objects.length = objs.length + 1 := by rw [eB1]; omega
  split at h
  case _ e heq =>
    injection h with h
    injection h with h1 h2
    subst h1
    subst h2
    exact ⟨hokB, by show objs.length ≤ sB.objects.length; omega,
      fun idx hidx => Except.noConfusion hidx⟩
  case _ b3 sC heq3 =>
  obtain ⟨eC1, eC2⟩ := getBytesN_ok heq3
  have hokC : regOk sC.objects sC.refables := by rw [eC1, eC2]; exact hokB
  have hlenC : sC.objects.length = objs.length + 1 := by rw [eC1]; omega
  split at h
  case _ e heq =>
    injection h with h
    injection h with h1 h2
    subst h1
    subst h2
    exact ⟨hokC, by show objs.length ≤ sC.objects.length; omega,
      fun idx hidx => Except.noConfusion hidx⟩
  case _ b4 sD heq4 =>
  obtain ⟨eD1, eD2⟩ := getBytesN_ok heq4
  have hokD : regOk sD.objects sD.refables := by rw [eD1, eD2]; exact hokC
  have hlenD : sD.objects.length = objs.length + 1 := by rw [eD1]; omega
  split at h
  case _ e heq =>
    injection h with h
    injection h with h1 h2
    subst h1
    subst h2
    exact ⟨hokD, by show objs.length ≤ sD.objects.length; omega,
      fun idx hidx => Except.noConfusion hidx⟩
  case _ b5 sE heq5 =>
  obtain ⟨eE1, eE2⟩ := getBytesN_ok heq5
  have hokE : regOk sE.objects sE.refables := by rw [eE1, eE2]; exact hokD
  have hlenE : sE.objects.length = objs.length + 1 := by rw [eE1]; omega
  -- the first eight object fields
  split at h
  · exact Option.noConfusion h
  case _ e t1 hq1 =>
    injection h with h
    injection h with h1 h2
    subst h1
    subst h2
    obtain ⟨g1, g2, _⟩ := hO sE (.error e) t1 hq1 hokE
    exact ⟨g1, by show objs.length ≤ t1.objects.length; omega,
      fun idx hidx => Except.noConfusion hidx⟩
  case _ codeIdx t1 hq1 =>
  obtain ⟨hok1, hmono1, hidx1⟩ := hO sE (.ok codeIdx) t1 hq1 hokE
  have hb1 : codeIdx < t1.objects.length := (hidx1 codeIdx rfl).1
  split at h
  · exact Option.noConfusion h
  case _ e t2 hq2 =>
    injection h with h
    injection h with h1 h2
    subst h1
    subst h2
    obtain ⟨g1, g2, _⟩ := hO t1 (.error e) t2 hq2 hok1
    exact ⟨g1, by show objs.length ≤ t2.objects.length; omega,
      fun idx hidx => Except.noConfusion hidx⟩
  case _ constsIdx t2 hq2 =>
  obtain ⟨hok2, hmono2, hidx2⟩ := hO t1 (.ok constsIdx) t2 hq2 hok1
  have hb2 : constsIdx < t2.objects.length := (hidx2 constsIdx rfl).1
  split at h
  · exact Option.noConfusion h
  case _ e t3 hq3 =>
    injection h with h
    injection h with h1 h2
    subst h1
    subst h2
    obtain ⟨g1, g2, _⟩ := hO t2 (.error e) t3 hq3 hok2
    exact ⟨g1, by show objs.length ≤ t3.objects.length; omega,
      fun idx hidx => Except.noConfusion hidx⟩
  case _ namesIdx t3 hq3 =>
  obtain ⟨hok3, hmono3, hidx3⟩ := hO t2 (.ok namesIdx) t3 hq3 hok2
  have hb3 : namesIdx < t3.objects.length := (hidx3 namesIdx rfl).1
  split at h
  · exact Option.noConfusion h
  case _ e t4 hq4 =>
    injection h with h
    injection h with h1 h2
    subst h1
    subst h2
    obtain ⟨g1, g2, _⟩ := hO t3 (.error e) t4 hq4 hok3
    exact ⟨g1, by show objs.length ≤ t4.objects.length; omega,
      fun idx hidx => Except.noConfusion hidx⟩
  case _ lpnIdx t4 hq4 =>
  obtain ⟨hok4, hmono4, hidx4⟩ := hO t3 (.ok lpnIdx) t4 hq4 hok3
  have hb4 : lpnIdx < t4.objects.length := (hidx4 lpnIdx rfl).1
  split at h
  · exact Option.noConfusion h
  case _ e t5 hq5 =>
    injection h with h
    injection h with h1 h2
    subst h1
    subst h2
    obtain ⟨g1, g2, _⟩ := hO t4 (.error e) t5 hq5 hok4
    exact ⟨g1, by show objs.length ≤ t5.objects.length; omega,
      fun idx hidx => Except.noConfusion hidx⟩
  case _ lpkIdx t5 hq5 =>
  obtain ⟨hok5, hmono5, hidx5⟩ := hO t4 (.ok lpkIdx) t5 hq5 hok4
  have hb5 : lpkIdx < t5.objects.length := (hidx5 lpkIdx rfl).1
  split at h
  · exact Option.noConfusion h
  case _ e t6 hq6 =>
    injection h with h
    injection h with h1 h2
    subst h1
    subst h2
    obtain ⟨g1, g2, _⟩ := hO t5 (.error e) t6 hq6 hok5
    exact ⟨g1, by show objs.length ≤ t6.objects.length; omega,
      fun idx hidx => Except.noConfusion hidx⟩
  case _ fileIdx t6 hq6 =>
  obtain ⟨hok6, hmono6, hidx6⟩ := hO t5 (.ok fileIdx) t6 hq6 hok5
  have hb6 : fileIdx < t6.objects.length := (hidx6 fileIdx rfl).1
  split at h
  · exact Option.noConfusion h
  case _ e t7 hq7 =>
    injection h with h
    injection h with h1 h2
    subst h1
    subst h2
    obtain ⟨g1, g2, _⟩ := hO t6 (.error e) t7 hq7 hok6
    exact ⟨g1, by show objs.length ≤ t7.objects.length; omega,
      fun idx hidx => Except.noConfusion hidx⟩
  case _ nameIdx t7 hq7 =>
  obtain ⟨hok7, hmono7, hidx7⟩ := hO t6 (.ok nameIdx) t7 hq7 hok6
  have hb7 : nameIdx < t7.objects.length := (hidx7 nameIdx rfl).1
  split at h
  · exact Option.noConfusion h
  case _ e t8 hq8 =>
    injection h with h
    injection h with h1 h2
    subst h1
    subst h2
    obtain ⟨g1, g2, _⟩ := hO t7 (.error e) t8 hq8 hok7
    exact ⟨g1, by show objs.length ≤ t8.objects.length; omega,
      fun idx hidx => Except.noConfusion hidx⟩
  case _ qualIdx t8 hq8 =>
  obtain ⟨hok8, hmono8, hidx8⟩ := hO t7 (.ok qualIdx) t8 hq8 hok7
  have hb8 : qualIdx < t8.objects.length := (hidx8 qualIdx rfl).1
  -- first_line_no
  split at h
  case _ e heq =>
    injection h with h
    injection h with h1 h2
    subst h1
    subst h2
    exact ⟨hok8, by show objs.length ≤ t8.objects.length; omega,
      fun idx hidx => Except.noConfusion hidx⟩
  case _ b6 sF heq6 =>
  obtain ⟨eF1, eF2⟩ := getBytesN_ok heq6
  have hokF : regOk sF.objects sF.refables := by rw [eF1, eF2]; exact hok8
  have hlenF : sF.objects.length = t8.objects.length := by rw [eF1]
  -- line_table and exception_table
  split at h
  · exact Option.noConfusion h
  case _ e t9 hq9 =>
    injection h with h
    injection h with h1 h2
    subst h1
    subst h2
    obtain ⟨g1, g2, _⟩ := hO sF (.error e) t9 hq9 hokF
    exact ⟨g1, by show objs.length ≤ t9.objects.length; omega,
      fun idx hidx => Except.noConfusion hidx⟩
  case _ ltIdx t9 hq9 =>
  obtain ⟨hok9, hmono9, hidx9⟩ := hO sF (.ok ltIdx) t9 hq9 hokF
  have hb9 : ltIdx < t9.objects.length := (hidx9 ltIdx rfl).1
  split at h
  · exact Option.noConfusion h
  case _ e t10 hq10 =>
    injection h with h
    injection h with h1 h2
    subst h1
    subst h2
    obtain ⟨g1, g2, _⟩ := hO t9 (.error e) t10 hq10 hok9
    exact ⟨g1, by show objs.length ≤ t10.objects.length; omega,
      fun idx hidx => Except.noConfusion hidx⟩
  case _ etIdx t10 hq10 =>
  obtain ⟨hok10, hmono10, hidx10⟩ := hO t9 (.ok etIdx) t10 hq10 hok9
  have hb10 : etIdx < t10.objects.length := (hidx10 etIdx rfl).1
  injection h with h
  injection h with h1 h2
  subst h1
  subst h2
  refine ⟨?_, ?_, ?_⟩
  · refine regOk_set _ hok10 ?_
    intro i hi
    simp only [containerIndices, List.mem_cons, List.not_mem_nil, or_false]
      at hi
    rcases hi with rfl | rfl | rfl | rfl | rfl | rfl | rfl | rfl | rfl | rfl
    · omega
    · omega
    · omega
    · omega
    · omega
    · omega
    · omega
    · omega
    · omega
    · omega
  · show objs.length ≤ (t10.objects.set objs.length _).length
    simp only [List.length_set]
    omega
  · intro idx hidx
    injection hidx with hidx
    subst hidx
    refine ⟨?_, rfl⟩
    show objs.length < (t10.objects.set objs.length _).length
    simp only [List.length_set]
    omega

/-- The construction invariant holds for all six parsing functions at
every fuel, by induction on the fuel. -/
theorem unmarshal_specs (oc : StdOracles) : ∀ fuel : Nat,
    ObjSpec oc fuel ∧ SeqSpec oc fuel ∧ ListSpec oc fuel ∧
    DictSpec oc fuel ∧ DictLoopSpec oc fuel ∧ CodeSpec oc fuel := by
  intro fuel
  induction fuel with
  | zero =>
    refine ⟨?_, ?_, ?_, ?_, ?_, ?_⟩
    · intro st res st' h
      simp [parseObject] at h
    · intro st flag k res st' h
      simp [parseSequence] at h
    · intro len st res st' h
      simp [parseList] at h
    · intro st flag res st' h
      simp [parseDict] at h
    · intro st res st' h
      simp [parseDictLoop] at h
    · intro st flag res st' h
      simp [parseCode] at h
  | succ fuel ih =>
    obtain ⟨hO, hS, hL, hD, hDL, hC⟩ := ih
    exact ⟨objStep oc fuel hS hL hD hC, seqStep oc fuel hL,
      listStep oc fuel hO hL, dictStep oc fuel hDL,
      dictLoopStep oc fuel hO hDL, codeStep oc fuel hO⟩

/-- The top-level parse from an empty region and ref table returns index
0 whenever it succeeds: a fresh index is the entry length (0 here), and a
`Ref` result would have to come from the empty ref table. -/
theorem parseObject_root (oc : StdOracles) (fuel : Nat) (src : List Nat)
    (idx : Nat) (st' : UState)
    (h : parseObject oc fuel ⟨src, [], []⟩ = some (.ok idx, st')) :
    idx = 0 := by
  obtain ⟨_, _, h3⟩ := (unmarshal_specs oc fuel).1 ⟨src, [], []⟩ (.ok idx) st' h
    ⟨by simp, by simp⟩
  rcases (h3 idx rfl).2 with h | h
  · simpa using h
  · simp at h

/-- C2 counterexample: on `{ ( \x01\x00\x00\x00 0` the tuple key's child
parse hits the `Null` tag, the resulting `FoundNull` error unwinds into
the dict loop and is treated as the terminator, and `loads` succeeds with
the abandoned tuple placeholder still `Null` in the final region —
contradicting the claim that no final entry is `Null`. -/
theorem c2_counterexample_null_entry_in_final_region :
    loads allTrueOracles 10 [123, 40, 1, 0, 0, 0, 48] =
      some (.ok [.dict [], .null]) ∧
    PyObject.null ∈ [PyObject.dict [], PyObject.null] := by
  exact ⟨rfl, by decide⟩

/-- C2 (amended): for every byte input on which `Unmarshaller::loads`
succeeds, every object index stored inside any container entry of the
returned region is strictly less than the region's length, and the root
object produced by the top-level parse is at index 0 (the
`assert_eq!(obj.0, 0)` never fires); however a final entry may be the
`Null` variant: the placeholder of a container abandoned when a dict
key's nested parse returns `FoundNull` survives into the returned
region. -/
theorem c2_amended_region_indices_valid_and_root_zero (oc : StdOracles)
    (fuel : Nat) (src : List Nat) :
    (∀ r, loads oc fuel src = some r → r ≠ .assertFailed) ∧
    (∀ reg, loads oc fuel src = some (.ok reg) → regionIndicesValid reg) := by
  constructor
  · intro r hr
    unfold loads at hr
    split at hr
    · exact Option.noConfusion hr
    case _ e st2 heq =>
      injection hr with hr
      subst hr
      intro hcon
      exact LoadsOutcome.noConfusion hcon
    case _ idx st2 heq =>
      have h0 : idx = 0 := parseObject_root oc fuel src idx st2 heq
      rw [if_pos h0] at hr
      injection hr with hr
      subst hr
      intro hcon
      exact LoadsOutcome.noConfusion hcon
  · intro reg hreg
    unfold loads at hreg
    split at hreg
    · exact Option.noConfusion hreg
    case _ e st2 heq =>
      injection hreg with hreg
      exact absurd hreg (by simp)
    case _ idx st2 heq =>
      obtain ⟨hok2, _, _⟩ := (unmarshal_specs oc fuel).1 ⟨src, [], []⟩
        (.ok idx) st2 heq ⟨by simp, by simp⟩
      split at hreg
      · injection hreg with hreg
        injection hreg with hreg
        subst hreg
        exact hok2.2
      · injection hreg with hreg
        exact absurd hreg (by simp)

/-- C2 witness: the amended theorem applied to the singleton input `N`:
the parse neither trips the root assertion nor stores an out-of-range
index. -/
theorem c2_witness :
    LoadsOutcome.ok [PyObject.none] ≠ LoadsOutcome.assertFailed ∧
    regionIndicesValid [PyObject.none] :=
  ⟨(c2_amended_region_indices_valid_and_root_zero allTrueOracles 3 [78]).1
      (.ok [PyObject.none]) rfl,
   (c2_amended_region_indices_valid_and_root_zero allTrueOracles 3 [78]).2
      [PyObject.none] rfl⟩
